import Mathlib

/-!
# Consistency engine of the decentralized-git contract

A shallow embedding of `src/contract/Commit.go`, `src/contract/Branch.go` and
`src/contract/Repository.go`, followed by theorems about it.

Modelling conventions.

* A Go `map[string]V` is a `GoMap V`: either the nil map or an allocated map given by an
  association list in which the first binding of a key is the one in force.  Reading a nil
  map behaves like reading an empty one, `delete` on it does nothing, and an assignment
  `m[k] = v` to it is a run-time panic.
* A method with a pointer receiver becomes a function that returns its results together
  with the new receiver.  A function that contains a map assignment returns an `Option`:
  `none` is the run-time panic "assignment to entry in nil map".
* In `Branch` and `Repository` maps are values.  A Go map is a reference, and
  `CreateNewBranch` keeps the map it is given, so two branches can share one commit map; a
  write to it then shows in both.  Within one repository the commit maps of the branches are
  the only maps of one type, so the only ones that can be shared, and the only write to a
  commit map is the one of `Branch.AddCommit`.  `SharedBranch` and `SharedRepository` keep
  the commit maps in a store and let a branch refer to its map by address; what `AddCommit`
  does to the other branches is stated there, and the two models agree on its verdicts.
* A Go `error` is an `Option String`: `none` is `nil`, `some msg` an error with that message.
* The order in which `range` visits a map is unspecified in Go.  Where a loop only
  accumulates, the order of `GoMap.bindings` is taken; `UnmarshalRepo`, whose result depends
  on the order, takes the visits as an argument.
* `fmt.Println` calls write to standard output only and are left out.
-/

namespace DecentralizedGit

/-! ## Go maps with string keys -/

/-- A Go `map[string]V`. -/
inductive GoMap (V : Type) where
  | nilMap : GoMap V
  | alloc (entries : List (String × V)) : GoMap V
deriving DecidableEq, Repr

/-- The first value bound to `k` in an association list. -/
def lookupKey {V : Type} (k : String) : List (String × V) → Option V
  | [] => none
  | (k', v) :: es => if k' = k then some v else lookupKey k es

/-- Remove every binding of `k` from an association list. -/
def eraseKey {V : Type} (k : String) (es : List (String × V)) : List (String × V) :=
  es.filter (fun e => decide (e.1 ≠ k))

/-- Bind `k` to `v` in an association list, replacing any earlier binding. -/
def putKey {V : Type} (k : String) (v : V) (es : List (String × V)) : List (String × V) :=
  (k, v) :: eraseKey k es

namespace GoMap

variable {V : Type}

/-- The bindings of a map; the nil map has none. -/
def entries : GoMap V → List (String × V)
  | nilMap => []
  | alloc es => es

/-- Allocation `make(map[string]V)`. -/
def make : GoMap V := alloc []

/-- Two-valued read `v, exist := m[k]`. -/
def get? (m : GoMap V) (k : String) : Option V := lookupKey k m.entries

/-- The `exist` flag of `_, exist := m[k]`. -/
def contains (m : GoMap V) (k : String) : Bool := (m.get? k).isSome

/-- One-valued read `m[k]`: the zero value of `V` when `k` is absent. -/
def getD [Inhabited V] (m : GoMap V) (k : String) : V := (m.get? k).getD default

/-- The key set of the map, without repetition. -/
def keys (m : GoMap V) : List String := (m.entries.map Prod.fst).dedup

/-- Builtin `len(m)`: the number of distinct keys. -/
def len (m : GoMap V) : Nat := m.keys.length

/-- Assignment `m[k] = v`; `none` is the panic on a nil map. -/
def set (m : GoMap V) (k : String) (v : V) : Option (GoMap V) :=
  match m with
  | nilMap => none
  | alloc es => some (alloc (putKey k v es))

/-- Builtin `delete(m, k)`; a no-op on the nil map and on an absent key. -/
def delete (m : GoMap V) (k : String) : GoMap V :=
  match m with
  | nilMap => nilMap
  | alloc es => alloc (eraseKey k es)

/-- The bindings in force, one for every key: the pairs that `for k, v := range m` visits.
Go leaves the order of the visits unspecified; the order of `keys` is taken here. -/
def bindings (m : GoMap V) : List (String × V) :=
  m.keys.filterMap (fun k => (m.get? k).map (fun v => (k, v)))

/-- The values that `for _, v := range m` visits. -/
def values (m : GoMap V) : List V := m.bindings.map Prod.snd

/-- The map with the same keys and every value replaced by its image under `f`. -/
def mapValues {W : Type} (f : V → W) : GoMap V → GoMap W
  | nilMap => nilMap
  | alloc es => alloc (es.map (fun e => (e.1, f e.2)))

end GoMap

/-! ## Time stamps -/

/-- Wrap an integer into the range of a Go `int64`. -/
def wrapInt64 (x : Int) : Int := (x + 2 ^ 63) % 2 ^ 64 - 2 ^ 63

/-- What the contract observes of a `time.Time`: the seconds since the Unix epoch and the
nanosecond offset within the second. -/
structure Time where
  unixSec : Int
  nsec : Nat
deriving DecidableEq, Repr

/-- Method `time.Time.UnixMilli`, `unixSec*1e3 + nsec/1e6` in `int64` arithmetic. -/
def Time.UnixMilli (t : Time) : Int := wrapInt64 (t.unixSec * 1000 + (t.nsec / 1000000 : Nat))

instance : Inhabited Time := ⟨⟨0, 0⟩⟩

/-! ## Commit.go -/

/-- Struct `Commit`. -/
structure Commit where
  Hash : String
  Author : String
  AuthorEmail : String
  Message : String
  ParentHashes : List String
  Timestamp : Time
  StorageHashes : GoMap String
deriving DecidableEq, Repr

/-- The zero value of `Commit`. -/
instance : Inhabited Commit := ⟨⟨"", "", "", "", [], default, GoMap.nilMap⟩⟩

/-- Function `CreateNewCommit`. -/
def CreateNewCommit (message author email hash : String) (timestamp : Time)
    (parentHashes : List String) (storageHashes : GoMap String) : Commit × Option String :=
  ({ Hash := hash, Author := author, AuthorEmail := email, Message := message,
     ParentHashes := parentHashes, Timestamp := timestamp, StorageHashes := storageHashes }, none)

/-! ## Branch.go -/

/-- Struct `Branch`. -/
structure Branch where
  Name : String
  Commits : GoMap Commit
deriving DecidableEq, Repr

/-- The zero value of `Branch`: empty name and nil commit map. -/
instance : Inhabited Branch := ⟨⟨"", GoMap.nilMap⟩⟩

/-- Function `CreateNewBranch`: a nil `commits` argument is replaced by a fresh map. -/
def CreateNewBranch (name : String) (commits : GoMap Commit) : Branch × Option String :=
  match commits with
  | GoMap.nilMap => ({ Name := name, Commits := GoMap.make }, none)
  | GoMap.alloc es => ({ Name := name, Commits := GoMap.alloc es }, none)

/-- Method `Branch.CommitExists`. -/
def Branch.CommitExists (branch : Branch) (hashName : String) : Bool :=
  branch.Commits.contains hashName

/-- Method `Branch.ValidCommit`.  The body of the loop over `commit.ParentHashes` returns in
both of its arms, so only the first parent hash is ever inspected; an empty parent list
falls through to the final error. -/
def Branch.ValidCommit (branch : Branch) (commit : Commit) : Bool × Option String :=
  if !branch.CommitExists commit.Hash then
    if branch.Commits.len == 0 then
      (true, none)
    else
      match commit.ParentHashes with
      | hash :: _ =>
        if branch.CommitExists hash then
          (decide ((branch.Commits.getD hash).Timestamp.UnixMilli < commit.Timestamp.UnixMilli),
            none)
        else
          (false, some ("Previous commit " ++ hash ++ " not valid for branch "
            ++ branch.Name ++ "!"))
      | [] =>
        (false, some ("Commit " ++ commit.Hash ++ " not valid for branch " ++ branch.Name ++ "!"))
  else
    (false, some ("Commit " ++ commit.Hash ++ " not valid for branch " ++ branch.Name ++ "!"))

/-- Method `Branch.AddCommit`: the verdict, the error and the branch afterwards; `none` is the
panic of the map assignment when `branch.Commits` is nil. -/
def Branch.AddCommit (branch : Branch) (commitLog : Commit) (passValidation : Bool) :
    Option ((Bool × Option String) × Branch) :=
  if (branch.ValidCommit commitLog).1 || passValidation then
    match branch.Commits.set commitLog.Hash commitLog with
    | none => none
    | some commits => some ((true, none), { branch with Commits := commits })
  else
    some ((false, none), branch)

/-! ## Repository.go -/

/-- Type `UserAccess`, a Go `int`. -/
abbrev UserAccess := Int

/-- Constant `ReadAccess`. -/
def ReadAccess : UserAccess := 1

/-- Constant `ReadWriteAccess`. -/
def ReadWriteAccess : UserAccess := 2

/-- Constant `OwnerAccess`. -/
def OwnerAccess : UserAccess := 3

/-- Constant `NoAccess`. -/
def NoAccess : UserAccess := 4

/-- Struct `AccessLog`. -/
structure AccessLog where
  Authorizer : String
  Authorized : String
  Timestamp : Time
  UserAccess : UserAccess
deriving DecidableEq, Repr

/-- Struct `Repository`. -/
structure Repository where
  Name : String
  Author : String
  DirectoryCID : String
  CommitHashes : GoMap Bool
  Access : GoMap UserAccess
  Branches : GoMap Branch
  AccessLogs : List AccessLog
deriving DecidableEq, Repr

namespace Repository

/-- Method `Repository.GetUserAccess`. -/
def GetUserAccess (repo : Repository) (user : String) : UserAccess :=
  match repo.Access.get? user with
  | some val => val
  | none => NoAccess

/-- Method `Repository.CanRead`. -/
def CanRead (repo : Repository) (user : String) : Bool :=
  match repo.Access.get? user with
  | some val => val == ReadAccess || val == ReadWriteAccess || val == OwnerAccess
  | none => false

/-- Method `Repository.CanEdit`. -/
def CanEdit (repo : Repository) (user : String) : Bool :=
  match repo.Access.get? user with
  | some val => val == ReadWriteAccess || val == OwnerAccess
  | none => false

/-- Method `Repository.IsOwner`. -/
def IsOwner (repo : Repository) (user : String) : Bool :=
  match repo.Access.get? user with
  | some val => val == OwnerAccess
  | none => false

/-- Method `Repository.UpdateAccess`: the verdict and the repository afterwards. -/
def UpdateAccess (repo : Repository) (authorized : String) (userAccess : UserAccess)
    (authorizer : String) (timestamp : Time) : Option (Bool × Repository) :=
  if repo.IsOwner authorizer then
    if (match repo.Access.get? authorized with
        | some val => val == userAccess
        | none => false) then
      some (false, repo)
    else if authorizer = authorized then
      some (false, repo)
    else
      let accessLog : AccessLog :=
        { Authorizer := authorizer, Authorized := authorized, Timestamp := timestamp,
          UserAccess := userAccess }
      match repo.Access.set authorized userAccess with
      | none => none
      | some access =>
        some (true, { repo with AccessLogs := repo.AccessLogs ++ [accessLog], Access := access })
  else
    some (false, repo)

/-- Method `Repository.CommitExists`. -/
def CommitExists (repo : Repository) (commitHash : String) : Bool :=
  repo.CommitHashes.contains commitHash

/-- Method `Repository.BranchExists`. -/
def BranchExists (repo : Repository) (branchName : String) : Bool :=
  repo.Branches.contains branchName

/-- Method `Repository.AddCommitHash`. -/
def AddCommitHash (repo : Repository) (commit : Commit) : Option (Bool × Repository) :=
  match repo.CommitHashes.set commit.Hash true with
  | none => none
  | some hashes => some (true, { repo with CommitHashes := hashes })

/-- The loop of `Repository.ValidCommit` over the parent hashes: the final value of
`allParentsAreHashes`, which starts as `true` and leaves the loop as soon as it is `false`. -/
def allParentsAreHashes (repo : Repository) : List String → Bool
  | [] => true
  | parentHash :: rest =>
    if true && repo.CommitExists parentHash then allParentsAreHashes repo rest else false

/-- Method `Repository.ValidCommit`. -/
def ValidCommit (repo : Repository) (commit : Commit) (branchName : String) :
    Bool × Option String :=
  if repo.BranchExists branchName then
    let branch := repo.Branches.getD branchName
    if repo.CommitHashes.len == 0 then
      (true, none)
    else if (branch.ValidCommit commit).1 then
      if repo.allParentsAreHashes commit.ParentHashes then (true, none) else (false, none)
    else
      (false, none)
  else
    (false, none)

/-- Method `Repository.ValidBranch`. -/
def ValidBranch (repo : Repository) (branch : Branch) : Bool × Option String :=
  (!repo.BranchExists branch.Name, none)

/-- The loop of `Repository.AddBranch` that calls `AddCommitHash` for every commit visited. -/
def addCommitHashLoop (repo : Repository) : List Commit → Option Repository
  | [] => some repo
  | log :: rest =>
    match repo.AddCommitHash log with
    | none => none
    | some (_, repo) => addCommitHashLoop repo rest

/-- Method `Repository.AddBranch`: the verdict, the error and the repository afterwards. -/
def AddBranch (repo : Repository) (branch : Branch) (setIfExists : Bool) :
    Option ((Bool × Option String) × Repository) :=
  if (repo.ValidBranch branch).1 || setIfExists then
    match repo.Branches.set branch.Name branch with
    | none => none
    | some branches =>
      match ({ repo with Branches := branches } : Repository).addCommitHashLoop
          branch.Commits.values with
      | none => none
      | some repo => some ((true, none), repo)
  else
    some ((false, none), repo)

/-- Method `Repository.AddCommit`: the verdict, the error and the repository afterwards. -/
def AddCommit (repo : Repository) (commit : Commit) (branchName : String)
    (passValidation : Bool) : Option ((Bool × Option String) × Repository) :=
  if (repo.ValidCommit commit branchName).1 || passValidation then
    let branch := repo.Branches.getD branchName
    match branch.AddCommit commit passValidation with
    | none => none
    | some ((done, _), branch) =>
      if done then
        match repo.Branches.set branchName branch with
        | none => none
        | some branches =>
          match ({ repo with Branches := branches } : Repository).AddCommitHash commit with
          | none => none
          | some (_, repo) => some ((true, none), repo)
      else
        some ((false, none), repo)
  else
    some ((false, none), repo)

/-- Method `Repository.AddCommits`: the verdict, the error and the repository afterwards. -/
def AddCommits (repo : Repository) (commits : List Commit) (branchName : String)
    (passValidation : Bool) : Option ((Bool × Option String) × Repository) :=
  match commits with
  | [] => some ((true, none), repo)
  | commit :: rest =>
    match repo.AddCommit commit branchName passValidation with
    | none => none
    | some ((pass, _), repo) =>
      if !pass then
        some ((false, some ("Could not add commit " ++ commit.Hash ++ "!")), repo)
      else
        AddCommits repo rest branchName passValidation

/-- Method `Repository.UpdateBranchName`.  Inside the guard the name `branch` is rebound to
the branch stored under `branch.Name`; the error after the guard names the argument. -/
def UpdateBranchName (repo : Repository) (branch : Branch) (newName : String) :
    Option ((Bool × Option String) × Repository) :=
  let rejected : Option ((Bool × Option String) × Repository) :=
    some ((false, some ("Branch " ++ branch.Name ++ " not valid!")), repo)
  if repo.BranchExists branch.Name && branch.Name != "main" && newName != "main" then
    let stored := repo.Branches.getD branch.Name
    if !repo.BranchExists newName then
      let branches := repo.Branches.delete stored.Name
      let renamed : Branch := { stored with Name := newName }
      match branches.set newName renamed with
      | none => none
      | some branches => some ((true, none), { repo with Branches := branches })
    else
      rejected
  else
    rejected

/-- Method `Repository.DeleteBranch`. -/
def DeleteBranch (repo : Repository) (name : String) : (Bool × Option String) × Repository :=
  if repo.BranchExists name && name != "main" then
    ((true, none), { repo with Branches := repo.Branches.delete name })
  else
    ((false, some ("Branch " ++ name ++ " does not exist for repo " ++ repo.Name ++ "!")), repo)

end Repository

/-- The loop of `CreateNewRepo` that replays the access logs, in order, into a fresh access
map. -/
def replayAccessLogs (accessLogs : List AccessLog) : List (String × UserAccess) :=
  accessLogs.foldl (fun access accessLog => putKey accessLog.Authorized accessLog.UserAccess access)
    []

/-- Function `CreateNewRepo`.  A nil `accessLogs` slice is `none`; a nil `branches` map is
`GoMap.nilMap`. -/
def CreateNewRepo (name author directoryCID : String) (branches : GoMap Branch)
    (accessLogs : Option (List AccessLog)) (createdTime : Time) : Repository × Option String :=
  let logs : List AccessLog :=
    match accessLogs with
    | some given => given
    | none => [] ++ [{ Authorizer := author, Authorized := author, Timestamp := createdTime,
                       UserAccess := OwnerAccess }]
  let repoBranches : GoMap Branch :=
    match branches with
    | GoMap.nilMap => GoMap.alloc (putKey "main" { Name := "main", Commits := GoMap.make } [])
    | GoMap.alloc es => GoMap.alloc es
  ({ Name := name, Author := author, DirectoryCID := directoryCID,
     CommitHashes := GoMap.make,
     Access := GoMap.alloc (replayAccessLogs logs),
     Branches := repoBranches,
     AccessLogs := logs }, none)

/-- Insert a commit into a list sorted by millisecond time stamp, in front of the first commit
that is strictly later. -/
def insertByMillis (commit : Commit) : List Commit → List Commit
  | [] => [commit]
  | next :: rest =>
    if commit.Timestamp.UnixMilli < next.Timestamp.UnixMilli then commit :: next :: rest
    else next :: insertByMillis commit rest

/-- The call `sort.Slice(logsList, less)` of `UnmarshalRepo`, whose `less` compares the
millisecond time stamps.  `sort.Slice` belongs to the Go library, not to the repository; it
is rendered as an insertion sort, which is what the library runs on short slices.  On
commits with pairwise different time stamps every sorting procedure gives the same list. -/
def sortByMillis (logsList : List Commit) : List Commit :=
  logsList.foldl (fun sorted commit => insertByMillis commit sorted) []

/-- The last loop of `UnmarshalRepo`: `repo.AddCommit(logsList[i], newBranch.Name, false)` for
every index in turn, the verdicts being dropped. -/
def addSortedCommits (repo : Repository) (logsList : List Commit) (branchName : String) :
    Option Repository :=
  match logsList with
  | [] => some repo
  | commit :: rest =>
    match repo.AddCommit commit branchName false with
    | none => none
    | some (_, repo) => addSortedCommits repo rest branchName

/-- The loop of `UnmarshalRepo` over the decoded branches.  Go leaves the order of `range`
over a map unspecified, so the visits are an argument: the branches in the order in which
`range unmarashaledRepo.Branches` yields them, each with its commits in the order in which
`range branch.Commits` yields them. -/
def rebuildBranches (repo : Repository) : List (Branch × List Commit) → Option Repository
  | [] => some repo
  | (branch, visited) :: rest =>
    let newBranch := (CreateNewBranch branch.Name GoMap.nilMap).1
    match repo.AddBranch newBranch true with
    | none => none
    | some (_, repo) =>
      let logsList := sortByMillis visited
      match addSortedCommits repo logsList newBranch.Name with
      | none => none
      | some repo => rebuildBranches repo rest

/-- Function `UnmarshalRepo`, after `json.Unmarshal` has decoded `objectString` into
`unmarashaledRepo`.  `accessLogs` is the decoded `AccessLogs` slice, `none` when it is nil;
`visits` is the order in which the two `range` loops yield the decoded branches and their
commits. -/
def UnmarshalRepo (unmarashaledRepo : Repository) (accessLogs : Option (List AccessLog))
    (createdTime : Time) (visits : List (Branch × List Commit)) :
    Option (Repository × Option String) :=
  let repo := (CreateNewRepo unmarashaledRepo.Name unmarashaledRepo.Author
    unmarashaledRepo.DirectoryCID GoMap.nilMap accessLogs createdTime).1
  match rebuildBranches repo visits with
  | none => none
  | some repo => some (repo, none)

/-- The visits are one of the orders in which the decoded repository can be enumerated: the
branches visited are the branches of the decoded repository in some order, each with its own
commits in some order. -/
def IsEnumeration (unmarashaledRepo : Repository) (visits : List (Branch × List Commit)) :
    Prop :=
  (visits.map Prod.fst).Perm unmarashaledRepo.Branches.values ∧
    ∀ visit ∈ visits, visit.2.Perm visit.1.Commits.values

/-! ## Sequences of validated appends to a branch -/

/-- Make the given `Branch.AddCommit` calls with `passValidation = false` one after the other,
whatever their verdicts; `none` if one of them fails at run time. -/
def Branch.addAllValidated (branch : Branch) : List Commit → Option Branch
  | [] => some branch
  | commit :: rest =>
    match branch.AddCommit commit false with
    | none => none
    | some (_, branch') => branch'.addAllValidated rest

/-- The parent relation on the commits of a branch: `child` and `parent` are hashes of
commits of the branch and `parent` is listed in the parent hashes of the commit `child`. -/
def Branch.parentEdge (branch : Branch) (child parent : String) : Bool :=
  match branch.Commits.get? child with
  | some commit => decide (parent ∈ commit.ParentHashes) && branch.CommitExists parent
  | none => false

/-- The first-parent relation on the commits of a branch other than `root`: `child` and
`parent` are hashes of commits of the branch, `child` is not `root`, and `parent` is the
first parent hash of the commit `child`. -/
def Branch.firstParentEdge (branch : Branch) (root child parent : String) : Bool :=
  match branch.Commits.get? child with
  | some commit =>
    decide (child ≠ root) && decide (commit.ParentHashes.head? = some parent)
      && branch.CommitExists parent
  | none => false

/-- The lineage of a branch with first commit `root`: every commit is stored under its own
hash, and every commit other than `root` has a first parent hash that is in the branch with
a strictly smaller millisecond time stamp. -/
def Branch.Lineage (branch : Branch) (root : String) : Prop :=
  (∀ k c, branch.Commits.get? k = some c → c.Hash = k) ∧
    ∀ k c, branch.Commits.get? k = some c → k ≠ root →
      ∃ p others parent, c.ParentHashes = p :: others ∧
        branch.Commits.get? p = some parent ∧
        parent.Timestamp.UnixMilli < c.Timestamp.UnixMilli

/-! ## The commit index and the branches -/

/-- The index covers the branches: for every branch of the repository and every commit
stored in it, the `Hash` of the commit is in the global commit index. -/
def Repository.IndexCovers (repo : Repository) : Prop :=
  ∀ b branch, repo.Branches.get? b = some branch →
    ∀ k c, branch.Commits.get? k = some c → repo.CommitExists c.Hash = true

/-- A check of `Repository.IndexCovers` by enumeration of the branches and their commits. -/
def Repository.indexCoversCheck (repo : Repository) : Bool :=
  repo.Branches.values.all (fun branch =>
    branch.Commits.values.all (fun c => repo.CommitExists c.Hash))

/-! ## Commit maps as references -/

/-- The contents of the allocated `map[string]Commit` values, by address. -/
abbrev CommitStore := List (List (String × Commit))

/-- Struct `Branch` with its `Commits` field as the reference it is in Go: `none` is the nil
map, `some address` the map kept at that address of the store.  An address outside the store
reads and writes like nil. -/
structure SharedBranch where
  Name : String
  Commits : Option Nat
deriving DecidableEq, Repr

/-- The zero value of `Branch`: empty name and nil commit map. -/
instance : Inhabited SharedBranch := ⟨⟨"", none⟩⟩

/-- The branch as a value: its name and the current contents of the map it refers to. -/
def SharedBranch.deref (store : CommitStore) (branch : SharedBranch) : Branch :=
  { Name := branch.Name,
    Commits :=
      match branch.Commits with
      | none => GoMap.nilMap
      | some address =>
        match store[address]? with
        | none => GoMap.nilMap
        | some entries => GoMap.alloc entries }

/-- Method `Branch.ValidCommit` on a branch with a referenced commit map; it only reads. -/
def SharedBranch.ValidCommit (store : CommitStore) (branch : SharedBranch)
    (commit : Commit) : Bool × Option String :=
  (branch.deref store).ValidCommit commit

/-- Method `Branch.AddCommit` on a branch with a referenced commit map: the verdict, the error
and the store afterwards.  The assignment `branch.Commits[commitLog.Hash] = commitLog` writes
the map in place, at its address; the fields of the branch itself do not change.  As before
`none` is the panic of the assignment to a nil map. -/
def SharedBranch.AddCommit (store : CommitStore) (branch : SharedBranch) (commitLog : Commit)
    (passValidation : Bool) : Option ((Bool × Option String) × CommitStore) :=
  if (branch.ValidCommit store commitLog).1 || passValidation then
    match branch.Commits with
    | none => none
    | some address =>
      match store[address]? with
      | none => none
      | some entries =>
        some ((true, none), store.set address (putKey commitLog.Hash commitLog entries))
  else
    some ((false, none), store)

/-- Struct `Repository` with the commit maps of its branches kept in a store. -/
structure SharedRepository where
  Name : String
  Author : String
  DirectoryCID : String
  CommitHashes : GoMap Bool
  Access : GoMap UserAccess
  Branches : GoMap SharedBranch
  AccessLogs : List AccessLog
  store : CommitStore
deriving DecidableEq, Repr

/-- The repository as a value: every branch with the current contents of its commit map. -/
def SharedRepository.deref (repo : SharedRepository) : Repository :=
  { Name := repo.Name, Author := repo.Author, DirectoryCID := repo.DirectoryCID,
    CommitHashes := repo.CommitHashes, Access := repo.Access,
    Branches := repo.Branches.mapValues (SharedBranch.deref repo.store),
    AccessLogs := repo.AccessLogs }

/-- Method `Repository.ValidCommit` on a repository with referenced commit maps; it only
reads. -/
def SharedRepository.ValidCommit (repo : SharedRepository) (commit : Commit)
    (branchName : String) : Bool × Option String :=
  repo.deref.ValidCommit commit branchName

/-- Method `Repository.AddCommit` on a repository with referenced commit maps: the verdict,
the error and the repository afterwards.  `branch := repo.Branches[branchName]` copies the
name and the reference; `branch.AddCommit` writes the referenced map;
`repo.Branches[branchName] = branch` stores the copy back; `repo.AddCommitHash` registers the
hash. -/
def SharedRepository.AddCommit (repo : SharedRepository) (commit : Commit)
    (branchName : String) (passValidation : Bool) :
    Option ((Bool × Option String) × SharedRepository) :=
  if (repo.ValidCommit commit branchName).1 || passValidation then
    let branch := repo.Branches.getD branchName
    match branch.AddCommit repo.store commit passValidation with
    | none => none
    | some ((done, _), store) =>
      if done then
        match repo.Branches.set branchName branch with
        | none => none
        | some branches =>
          match repo.CommitHashes.set commit.Hash true with
          | none => none
          | some hashes =>
            some ((true, none),
              { repo with Branches := branches, CommitHashes := hashes, store := store })
      else
        some ((false, none), repo)
  else
    some ((false, none), repo)

/-! ## Sequences of accepted commits -/

/-- Apply `Repository.AddCommit` to the commits in list order, as long as every call returns
true: `some repo'` is the repository after all of them have been accepted in turn, `none`
means that one of them was not accepted. -/
def Repository.acceptAll (repo : Repository) (commits : List Commit) (branchName : String)
    (passValidation : Bool) : Option Repository :=
  match commits with
  | [] => some repo
  | commit :: rest =>
    match repo.AddCommit commit branchName passValidation with
    | some ((true, _), repo') => repo'.acceptAll rest branchName passValidation
    | _ => none

/-! ## Sequences of access updates -/

/-- The arguments of one call of `Repository.UpdateAccess`. -/
structure UpdateAccessCall where
  authorized : String
  userAccess : UserAccess
  authorizer : String
  timestamp : Time
deriving DecidableEq, Repr

/-- Make the given `UpdateAccess` calls one after the other, whatever their verdicts; `none`
if one of them fails at run time. -/
def Repository.updateAccessAll (repo : Repository) : List UpdateAccessCall → Option Repository
  | [] => some repo
  | call :: calls =>
    match repo.UpdateAccess call.authorized call.userAccess call.authorizer call.timestamp with
    | none => none
    | some (_, repo') => repo'.updateAccessAll calls

/-- The specification's reading of the access map: the access level of the most recently
appended entry of `accessLogs` whose `Authorized` is `user`, if there is such an entry. -/
def lastLoggedAccess (accessLogs : List AccessLog) (user : String) : Option UserAccess :=
  ((accessLogs.filter (fun entry => decide (entry.Authorized = user))).getLast?).map
    (fun entry => entry.UserAccess)

/-- The access map agrees with the access log: every user is mapped to what
`lastLoggedAccess` gives, and is absent when it gives nothing. -/
def Repository.AccessFromLog (repo : Repository) : Prop :=
  ∀ user, repo.Access.get? user = lastLoggedAccess repo.AccessLogs user

/-! ## Sample data -/

/-- A commit with the given hash, parent hashes and time stamp in milliseconds; every other
field is empty. -/
def sampleCommit (hash : String) (parents : List String) (millis : Nat) : Commit :=
  { Hash := hash, Author := "", AuthorEmail := "", Message := "", ParentHashes := parents,
    Timestamp := { unixSec := (millis / 1000 : Nat), nsec := millis % 1000 * 1000000 },
    StorageHashes := GoMap.nilMap }

/-- Branch `main` holding the single commit `c1`, made at 5 ms. -/
def sampleBranch : Branch :=
  { Name := "main", Commits := GoMap.alloc [("c1", sampleCommit "c1" [] 5)] }

/-- A repository `proj` of `alice` whose only branch is `sampleBranch` and whose commit index
holds `c1`. -/
def sampleRepo : Repository :=
  { Name := "proj", Author := "alice", DirectoryCID := "",
    CommitHashes := GoMap.alloc [("c1", true)],
    Access := GoMap.alloc [("alice", OwnerAccess)],
    Branches := GoMap.alloc [("main", sampleBranch)],
    AccessLogs := [{ Authorizer := "alice", Authorized := "alice", Timestamp := ⟨0, 0⟩,
                     UserAccess := OwnerAccess }] }

/-- The repository `CreateNewRepo("proj", "alice", "", nil, nil, t)` for `t` the Unix epoch. -/
def freshRepo : Repository :=
  (CreateNewRepo "proj" "alice" "" GoMap.nilMap none ⟨0, 0⟩).1

/-- The repository `CreateNewRepo("proj", "alice", "", branches, nil, t)` whose `branches`
hold the single branch `Branch{Name: "dev"}`, a branch value with a nil commit map. -/
def nilBranchRepo : Repository :=
  (CreateNewRepo "proj" "alice" "" (GoMap.alloc [("dev", { Name := "dev", Commits := GoMap.nilMap })])
    none ⟨0, 0⟩).1

/-- The fresh repository with its commit index replaced by the nil map, as in a `Repository`
struct literal that leaves `CommitHashes` out. -/
def nilIndexRepo : Repository :=
  { freshRepo with CommitHashes := GoMap.nilMap }

/-- The repository `CreateNewRepo("proj", "alice", "", branches, nil, t)` whose `branches`
map the key `x` to a branch with the `Name` field `y`, and the key `y` to the branch `y`
holding `c1`. -/
def mismatchedRepo : Repository :=
  (CreateNewRepo "proj" "alice" ""
    (GoMap.alloc [("x", { Name := "y", Commits := GoMap.make }),
                  ("y", { Name := "y", Commits := GoMap.alloc [("c1", sampleCommit "c1" [] 5)] })])
    none ⟨0, 0⟩).1

/-- The repository `sampleRepo` with a second, empty branch `dev`. -/
def twoBranchRepo : Repository :=
  { sampleRepo with
    Branches := GoMap.alloc [("dev", { Name := "dev", Commits := GoMap.make }),
                             ("main", sampleBranch)] }

/-- The fresh repository with its branch map replaced by the nil map, as in a `Repository`
struct literal that leaves `Branches` out. -/
def nilBranchesRepo : Repository :=
  { freshRepo with Branches := GoMap.nilMap }

/-- A decoded repository with two branches: `A` holds `a1` (1 ms) and the merge commit `a2`
(3 ms) with parents `a1` and `b1`; `B` holds `b1` (2 ms). -/
def decodedRepo : Repository :=
  { Name := "proj", Author := "alice", DirectoryCID := "",
    CommitHashes := GoMap.nilMap, Access := GoMap.nilMap,
    Branches := GoMap.alloc
      [("A", { Name := "A",
               Commits := GoMap.alloc [("a1", sampleCommit "a1" [] 1),
                                       ("a2", sampleCommit "a2" ["a1", "b1"] 3)] }),
       ("B", { Name := "B", Commits := GoMap.alloc [("b1", sampleCommit "b1" [] 2)] })],
    AccessLogs := [] }

/-- The branch `A` of `decodedRepo`. -/
def decodedBranchA : Branch :=
  { Name := "A",
    Commits := GoMap.alloc [("a1", sampleCommit "a1" [] 1),
                            ("a2", sampleCommit "a2" ["a1", "b1"] 3)] }

/-- The branch `B` of `decodedRepo`. -/
def decodedBranchB : Branch :=
  { Name := "B", Commits := GoMap.alloc [("b1", sampleCommit "b1" [] 2)] }

/-- A repository whose branches `main` and `dev` refer to one and the same commit map, which
holds `c1`: what `CreateNewBranch("main", m)` and `CreateNewBranch("dev", m)` give for one
map `m`. -/
def forkedRepo : SharedRepository :=
  { Name := "proj", Author := "alice", DirectoryCID := "",
    CommitHashes := GoMap.alloc [("c1", true)],
    Access := GoMap.alloc [("alice", OwnerAccess)],
    Branches := GoMap.alloc [("dev", { Name := "dev", Commits := some 0 }),
                             ("main", { Name := "main", Commits := some 0 })],
    AccessLogs := [{ Authorizer := "alice", Authorized := "alice", Timestamp := ⟨0, 0⟩,
                     UserAccess := OwnerAccess }],
    store := [[("c1", sampleCommit "c1" [] 5)]] }

/-- The same repository with a commit map of its own for each branch, both holding `c1`. -/
def unsharedRepo : SharedRepository :=
  { forkedRepo with
    Branches := GoMap.alloc [("dev", { Name := "dev", Commits := some 1 }),
                             ("main", { Name := "main", Commits := some 0 })],
    store := [[("c1", sampleCommit "c1" [] 5)], [("c1", sampleCommit "c1" [] 5)]] }

/-- The repository `nilBranchRepo` with its commit maps kept in a store: the branch `dev`
has a nil commit map. -/
def sharedNilBranchRepo : SharedRepository :=
  { Name := "proj", Author := "alice", DirectoryCID := "",
    CommitHashes := GoMap.make,
    Access := GoMap.alloc [("alice", OwnerAccess)],
    Branches := GoMap.alloc [("dev", { Name := "dev", Commits := none })],
    AccessLogs := [{ Authorizer := "alice", Authorized := "alice", Timestamp := ⟨0, 0⟩,
                     UserAccess := OwnerAccess }],
    store := [] }

/-- The repository `nilIndexRepo` with its commit maps kept in a store: the commit index is
nil. -/
def sharedNilIndexRepo : SharedRepository :=
  { Name := "proj", Author := "alice", DirectoryCID := "",
    CommitHashes := GoMap.nilMap,
    Access := GoMap.alloc [("alice", OwnerAccess)],
    Branches := GoMap.alloc [("main", { Name := "main", Commits := some 0 })],
    AccessLogs := [{ Authorizer := "alice", Authorized := "alice", Timestamp := ⟨0, 0⟩,
                     UserAccess := OwnerAccess }],
    store := [[]] }

/-! ## Facts about Go maps -/

section MapFacts

variable {V : Type}

theorem lookupKey_eraseKey_self (k : String) (es : List (String × V)) :
    lookupKey k (eraseKey k es) = none := by
  induction es with
  | nil => rfl
  | cons e es ih =>
    obtain ⟨k', v⟩ := e
    by_cases h : k' = k
    · simpa [eraseKey, List.filter_cons, h] using ih
    · simpa [eraseKey, List.filter_cons, h, lookupKey] using ih

theorem lookupKey_eraseKey_ne {k k' : String} (h : k' ≠ k) (es : List (String × V)) :
    lookupKey k' (eraseKey k es) = lookupKey k' es := by
  induction es with
  | nil => rfl
  | cons e es ih =>
    obtain ⟨k₀, v⟩ := e
    by_cases h₀ : k₀ = k
    · subst h₀
      have h₁ : ¬ k₀ = k' := fun h₂ => h h₂.symm
      simpa [eraseKey, List.filter_cons, lookupKey, h₁] using ih
    · by_cases h₁ : k₀ = k'
      · subst h₁
        simp [eraseKey, List.filter_cons, h₀, lookupKey]
      · simpa [eraseKey, List.filter_cons, h₀, lookupKey, h₁] using ih

theorem lookupKey_putKey_self (k : String) (v : V) (es : List (String × V)) :
    lookupKey k (putKey k v es) = some v := by
  simp [putKey, lookupKey]

theorem lookupKey_putKey_ne {k k' : String} (h : k' ≠ k) (v : V) (es : List (String × V)) :
    lookupKey k' (putKey k v es) = lookupKey k' es := by
  have h₁ : ¬ k = k' := fun h₂ => h h₂.symm
  simp [putKey, lookupKey, h₁, lookupKey_eraseKey_ne h]

theorem lookupKey_isSome_iff (k : String) (es : List (String × V)) :
    (lookupKey k es).isSome = true ↔ k ∈ es.map Prod.fst := by
  induction es with
  | nil => simp [lookupKey]
  | cons e es ih =>
    obtain ⟨k', v⟩ := e
    by_cases h : k' = k
    · simp [lookupKey, h]
    · have h₁ : ¬ k = k' := fun h₂ => h h₂.symm
      simpa [lookupKey, h, h₁] using ih

namespace GoMap

theorem len_eq_zero_iff (m : GoMap V) : m.len = 0 ↔ m.entries = [] := by
  simp [len, keys]

theorem get?_eq_none_of_len_eq_zero {m : GoMap V} (h : m.len = 0) (k : String) :
    m.get? k = none := by
  rw [len_eq_zero_iff] at h
  simp [get?, h, lookupKey]

theorem len_ne_zero_of_contains {m : GoMap V} {k : String} (h : m.contains k = true) :
    m.len ≠ 0 := by
  intro h₀
  simp [contains, get?_eq_none_of_len_eq_zero h₀] at h

theorem len_eq_zero_of_forall {m : GoMap V} (h : ∀ k, m.get? k = none) : m.len = 0 := by
  rw [len_eq_zero_iff]
  cases hm : m.entries with
  | nil => rfl
  | cons e es =>
    have h₁ := h e.1
    simp [get?, hm, lookupKey] at h₁

theorem get?_set_self {m m' : GoMap V} {k : String} {v : V} (h : m.set k v = some m') :
    m'.get? k = some v := by
  cases m with
  | nilMap => simp [set] at h
  | alloc es =>
    simp only [set, Option.some.injEq] at h
    subst h
    exact lookupKey_putKey_self k v es

theorem get?_set_ne {m m' : GoMap V} {k k' : String} {v : V} (h : m.set k v = some m')
    (hk : k' ≠ k) : m'.get? k' = m.get? k' := by
  cases m with
  | nilMap => simp [set] at h
  | alloc es =>
    simp only [set, Option.some.injEq] at h
    subst h
    exact lookupKey_putKey_ne hk v es

theorem get?_delete_self (m : GoMap V) (k : String) : (m.delete k).get? k = none := by
  cases m with
  | nilMap => rfl
  | alloc es => exact lookupKey_eraseKey_self k es

theorem get?_delete_ne (m : GoMap V) {k k' : String} (hk : k' ≠ k) :
    (m.delete k).get? k' = m.get? k' := by
  cases m with
  | nilMap => rfl
  | alloc es => exact lookupKey_eraseKey_ne hk es

theorem set_isSome_of_contains {m : GoMap V} {k₀ : String} (h : m.contains k₀ = true)
    (k : String) (v : V) : ∃ m', m.set k v = some m' := by
  cases m with
  | nilMap => simp [contains, get?, entries, lookupKey] at h
  | alloc es => exact ⟨_, rfl⟩

theorem contains_eq_true_iff (m : GoMap V) (k : String) :
    m.contains k = true ↔ ∃ v, m.get? k = some v := by
  simp [contains, Option.isSome_iff_exists]

theorem contains_eq_false_iff (m : GoMap V) (k : String) :
    m.contains k = false ↔ m.get? k = none := by
  simp [contains]

end GoMap

end MapFacts

/-! ## Branch-level validation -/

/-- Claim C1.  When the hash of `c` is not in the branch and the first parent hash `p` of `c`
is, `Branch.ValidCommit` returns a nil error and the verdict "the millisecond time stamp of
the commit stored under `p` is strictly smaller than that of `c`"; the parent hashes after
the first play no part, so replacing them by any other list gives the same result. -/
theorem validCommit_first_parent_ordering (branch : Branch) (c : Commit) (p : String)
    (rest : List String)
    (hc : branch.CommitExists c.Hash = false)
    (hparents : c.ParentHashes = p :: rest)
    (hp : branch.CommitExists p = true) :
    ∃ stored, branch.Commits.get? p = some stored ∧
      branch.ValidCommit c
        = (decide (stored.Timestamp.UnixMilli < c.Timestamp.UnixMilli), none) ∧
      ((branch.ValidCommit c).1 = true ↔
        stored.Timestamp.UnixMilli < c.Timestamp.UnixMilli) ∧
      ∀ others : List String,
        branch.ValidCommit { c with ParentHashes := p :: others } = branch.ValidCommit c := by
  obtain ⟨stored, hstored⟩ := (GoMap.contains_eq_true_iff _ _).1 hp
  have hlen : branch.Commits.len ≠ 0 := GoMap.len_ne_zero_of_contains hp
  have hval : ∀ others : List String,
      branch.ValidCommit { c with ParentHashes := p :: others }
        = (decide (stored.Timestamp.UnixMilli < c.Timestamp.UnixMilli), none) := by
    intro others
    simp [Branch.ValidCommit, hc, hlen, hp, GoMap.getD, hstored]
  have hself : branch.ValidCommit c
      = (decide (stored.Timestamp.UnixMilli < c.Timestamp.UnixMilli), none) := by
    have h := hval rest
    rw [← hparents] at h
    exact h
  refine ⟨stored, hstored, hself, ?_, ?_⟩
  · rw [hself]; simp
  · intro others
    rw [hval others, hself]

/-- Witness for C1: `sampleBranch` holds `c1` at 5 ms; the commit `c2` has parents `c1, zz`
and is made at 6 ms. -/
theorem validCommit_first_parent_ordering_witness :
    sampleBranch.CommitExists (sampleCommit "c2" ["c1", "zz"] 6).Hash = false ∧
    sampleBranch.CommitExists "c1" = true ∧
    ∃ stored, sampleBranch.Commits.get? "c1" = some stored ∧
      sampleBranch.ValidCommit (sampleCommit "c2" ["c1", "zz"] 6)
        = (decide (stored.Timestamp.UnixMilli
            < (sampleCommit "c2" ["c1", "zz"] 6).Timestamp.UnixMilli), none) ∧
      ((sampleBranch.ValidCommit (sampleCommit "c2" ["c1", "zz"] 6)).1 = true ↔
        stored.Timestamp.UnixMilli < (sampleCommit "c2" ["c1", "zz"] 6).Timestamp.UnixMilli) ∧
      ∀ others : List String,
        sampleBranch.ValidCommit
            { sampleCommit "c2" ["c1", "zz"] 6 with ParentHashes := "c1" :: others }
          = sampleBranch.ValidCommit (sampleCommit "c2" ["c1", "zz"] 6) :=
  ⟨by decide, by decide,
    validCommit_first_parent_ordering sampleBranch (sampleCommit "c2" ["c1", "zz"] 6) "c1" ["zz"]
      (by decide) rfl (by decide)⟩

theorem Branch.validCommit_of_commitExists {branch : Branch} {c : Commit}
    (h : branch.CommitExists c.Hash = true) : (branch.ValidCommit c).1 = false := by
  simp [Branch.ValidCommit, h]

theorem Branch.addCommit_eq_some_true {branch branch' : Branch} {c : Commit} {f : Bool}
    {err : Option String} (h : branch.AddCommit c f = some ((true, err), branch')) :
    err = none ∧ branch'.Name = branch.Name ∧
      branch.Commits.set c.Hash c = some branch'.Commits := by
  unfold Branch.AddCommit at h
  split at h
  · cases hset : branch.Commits.set c.Hash c with
    | none => simp [hset] at h
    | some commits =>
      simp only [hset, Option.some.injEq, Prod.mk.injEq, true_and] at h
      obtain ⟨herr, hb⟩ := h
      subst hb
      exact ⟨herr.symm, rfl, rfl⟩
  · simp at h

/-- Claim C2, as stated.  On an empty branch `main`, adding `c1` is accepted; a second
commit with the same hash, other parents and another time stamp, added with
`passValidation = true`, is accepted as well and replaces the stored commit. -/
theorem addCommit_duplicate_passValidation_accepted :
    (Branch.mk "main" GoMap.make).AddCommit (sampleCommit "c1" [] 5) false
        = some ((true, none), sampleBranch) ∧
      (sampleCommit "c1" ["zz"] 9).Hash = (sampleCommit "c1" [] 5).Hash ∧
      sampleBranch.AddCommit (sampleCommit "c1" ["zz"] 9) true
        = some ((true, none),
            { Name := "main", Commits := GoMap.alloc [("c1", sampleCommit "c1" ["zz"] 9)] }) ∧
      ({ Name := "main", Commits := GoMap.alloc [("c1", sampleCommit "c1" ["zz"] 9)] } : Branch)
        ≠ sampleBranch := by
  decide

/-- Claim C2, amended.  Once `Branch.AddCommit c f` has returned true (for either value of
`f`), a following `Branch.AddCommit c' false` with `c'.Hash = c.Hash` on the resulting
branch returns false with a nil error and leaves that branch unchanged. -/
theorem addCommit_duplicate_rejected (branch branch' : Branch) (c c' : Commit) (f : Bool)
    (err : Option String)
    (hhash : c'.Hash = c.Hash)
    (hadd : branch.AddCommit c f = some ((true, err), branch')) :
    branch'.AddCommit c' false = some ((false, none), branch') := by
  obtain ⟨-, -, hset⟩ := Branch.addCommit_eq_some_true hadd
  have hex : branch'.CommitExists c'.Hash = true := by
    rw [hhash]
    simp [Branch.CommitExists, GoMap.contains, GoMap.get?_set_self hset]
  simp [Branch.AddCommit, Branch.validCommit_of_commitExists hex]

/-- Witness for C2 amended: `c1` is accepted into the empty branch `main`; re-adding a commit
with hash `c1` without `passValidation` is rejected. -/
theorem addCommit_duplicate_rejected_witness :
    (sampleCommit "c1" ["zz"] 9).Hash = (sampleCommit "c1" [] 5).Hash ∧
      (Branch.mk "main" GoMap.make).AddCommit (sampleCommit "c1" [] 5) false
        = some ((true, none), sampleBranch) ∧
      sampleBranch.AddCommit (sampleCommit "c1" ["zz"] 9) false
        = some ((false, none), sampleBranch) :=
  ⟨rfl, by decide,
    addCommit_duplicate_rejected (Branch.mk "main" GoMap.make) sampleBranch
      (sampleCommit "c1" [] 5) (sampleCommit "c1" ["zz"] 9) false none rfl (by decide)⟩

/-! ## Repository-level validation -/

theorem Repository.allParentsAreHashes_iff (repo : Repository) (parents : List String) :
    repo.allParentsAreHashes parents = true ↔ ∀ p ∈ parents, repo.CommitExists p = true := by
  induction parents with
  | nil => simp [Repository.allParentsAreHashes]
  | cons p ps ih =>
    by_cases hp : repo.CommitExists p = true
    · simp [Repository.allParentsAreHashes, hp, ih]
    · simp [Repository.allParentsAreHashes, hp]

/-- Claim C3, as stated.  In the fresh repository the commit index is empty, branch `main`
exists, and a commit whose parent `zz` is in no index is nevertheless valid. -/
theorem repo_validCommit_empty_index_accepts_unknown_parent :
    freshRepo.BranchExists "main" = true ∧
      "zz" ∈ (sampleCommit "c1" ["zz"] 5).ParentHashes ∧
      freshRepo.CommitExists "zz" = false ∧
      freshRepo.ValidCommit (sampleCommit "c1" ["zz"] 5) "main" = (true, none) := by
  decide

/-- Claim C3, amended.  When the global commit index is not empty and some parent hash of
`c`, at any position, is absent from it, `Repository.ValidCommit` returns false, for every
branch name and whatever the branch-level check says. -/
theorem repo_validCommit_parent_closure (repo : Repository) (c : Commit) (b p : String)
    (hindex : repo.CommitHashes.len ≠ 0)
    (hp : p ∈ c.ParentHashes)
    (habsent : repo.CommitExists p = false) :
    repo.ValidCommit c b = (false, none) := by
  have hall : ¬ repo.allParentsAreHashes c.ParentHashes = true := by
    rw [Repository.allParentsAreHashes_iff]
    intro h
    simp [h p hp] at habsent
  simp only [Repository.ValidCommit, beq_iff_eq, hindex, if_false, hall]
  split <;> [split; skip] <;> rfl

/-- Witness for C3 amended: in `sampleRepo` the index is `c1`; the commit `c2` with parents
`c1, zz` passes the branch-level check of `main` and is rejected by the repository. -/
theorem repo_validCommit_parent_closure_witness :
    sampleRepo.CommitHashes.len ≠ 0 ∧
      "zz" ∈ (sampleCommit "c2" ["c1", "zz"] 6).ParentHashes ∧
      sampleRepo.CommitExists "zz" = false ∧
      (sampleBranch.ValidCommit (sampleCommit "c2" ["c1", "zz"] 6)).1 = true ∧
      sampleRepo.ValidCommit (sampleCommit "c2" ["c1", "zz"] 6) "main" = (false, none) :=
  ⟨by decide, by decide, by decide, by decide,
    repo_validCommit_parent_closure sampleRepo (sampleCommit "c2" ["c1", "zz"] 6) "main" "zz"
      (by decide) (by decide) (by decide)⟩

/-- Claim C4.  `Repository.ValidCommit c b` returns true exactly when `b` names a branch of
the repository and either the commit index is empty, or that branch's `Branch.ValidCommit c`
returns true and every parent hash of `c` is in the index; its error is always nil.  In
particular it is false when `b` names no branch, and true when `b` names one and the index
is empty. -/
theorem repo_validCommit_iff (repo : Repository) (c : Commit) (b : String) :
    ((repo.ValidCommit c b).1 = true ↔
      ∃ branch, repo.Branches.get? b = some branch ∧
        (repo.CommitHashes.len = 0 ∨
          ((branch.ValidCommit c).1 = true ∧
            ∀ p ∈ c.ParentHashes, repo.CommitExists p = true))) ∧
      (repo.ValidCommit c b).2 = none ∧
      (repo.BranchExists b = false → (repo.ValidCommit c b).1 = false) ∧
      (repo.BranchExists b = true → repo.CommitHashes.len = 0 →
        (repo.ValidCommit c b).1 = true) := by
  cases hb : repo.Branches.get? b with
  | none =>
    have hex : repo.BranchExists b = false := by
      simp [Repository.BranchExists, GoMap.contains, hb]
    simp [Repository.ValidCommit, hex]
  | some branch =>
    have hex : repo.BranchExists b = true := by
      simp [Repository.BranchExists, GoMap.contains, hb]
    by_cases hlen : repo.CommitHashes.len = 0
    · simp [Repository.ValidCommit, hex, hlen]
    · by_cases hv : (branch.ValidCommit c).1 = true
      · by_cases hall : repo.allParentsAreHashes c.ParentHashes = true
        · have hall' := (Repository.allParentsAreHashes_iff repo c.ParentHashes).1 hall
          simp [Repository.ValidCommit, hex, hlen, GoMap.getD, hb, hv, hall]
          exact hall'
        · have hall' : ¬ ∀ p ∈ c.ParentHashes, repo.CommitExists p = true :=
            fun h => hall ((Repository.allParentsAreHashes_iff repo c.ParentHashes).2 h)
          simp [Repository.ValidCommit, hex, hlen, GoMap.getD, hb, hv, hall]
          simpa using hall'
      · simp [Repository.ValidCommit, hex, hlen, GoMap.getD, hb, hv]

/-- Witness for C4: `sampleRepo` has branch `main` and no branch `dev`; the fresh repository
has branch `main` and an empty index. -/
theorem repo_validCommit_iff_witness :
    sampleRepo.BranchExists "dev" = false ∧
      (sampleRepo.ValidCommit (sampleCommit "c2" ["c1"] 6) "dev").1 = false ∧
      freshRepo.BranchExists "main" = true ∧ freshRepo.CommitHashes.len = 0 ∧
      (freshRepo.ValidCommit (sampleCommit "c2" ["c1"] 6) "main").1 = true :=
  ⟨by decide,
    (repo_validCommit_iff sampleRepo (sampleCommit "c2" ["c1"] 6) "dev").2.2.1 (by decide),
    by decide, by decide,
    (repo_validCommit_iff freshRepo (sampleCommit "c2" ["c1"] 6) "main").2.2.2
      (by decide) (by decide)⟩

/-! ## Appending a commit to a repository -/

theorem Branch.commitExists_eq_false_of_validCommit {branch : Branch} {c : Commit}
    (h : (branch.ValidCommit c).1 = true) : branch.CommitExists c.Hash = false := by
  cases hex : branch.CommitExists c.Hash with
  | false => rfl
  | true => simp [Branch.validCommit_of_commitExists hex] at h

theorem Repository.branch_of_validCommit {repo : Repository} {c : Commit} {b : String}
    (h : (repo.ValidCommit c b).1 = true) : ∃ branch, repo.Branches.get? b = some branch := by
  cases hb : repo.Branches.get? b with
  | some branch => exact ⟨branch, rfl⟩
  | none => simp [Repository.ValidCommit, Repository.BranchExists, GoMap.contains, hb] at h

theorem GoMap.set_eq_some_of_ne_nilMap {V : Type} {m : GoMap V} (h : m ≠ GoMap.nilMap)
    (k : String) (v : V) : ∃ m', m.set k v = some m' := by
  cases m with
  | nilMap => exact absurd rfl h
  | alloc es => exact ⟨_, rfl⟩

theorem lookupKey_map {V W : Type} (f : V → W) (k : String) (es : List (String × V)) :
    lookupKey k (es.map (fun e => (e.1, f e.2))) = (lookupKey k es).map f := by
  induction es with
  | nil => rfl
  | cons e es ih =>
    obtain ⟨k', v⟩ := e
    by_cases h : k' = k
    · simp [lookupKey, h]
    · simpa [lookupKey, h] using ih

theorem GoMap.get?_mapValues {V W : Type} (f : V → W) (m : GoMap V) (k : String) :
    (m.mapValues f).get? k = (m.get? k).map f := by
  cases m with
  | nilMap => rfl
  | alloc es => exact lookupKey_map f k es

theorem SharedRepository.get?_deref (repo : SharedRepository) (n : String) :
    repo.deref.Branches.get? n = (repo.Branches.get? n).map (SharedBranch.deref repo.store) :=
  GoMap.get?_mapValues _ _ _

/-- A branch whose commit map is not nil, read as a value, refers to a map of the store. -/
theorem SharedBranch.address_of_deref_ne_nilMap {store : CommitStore} {branch : SharedBranch}
    (h : (branch.deref store).Commits ≠ GoMap.nilMap) :
    ∃ address entries, branch.Commits = some address ∧ store[address]? = some entries := by
  cases haddr : branch.Commits with
  | none => simp [SharedBranch.deref, haddr] at h
  | some address =>
    cases hentries : store[address]? with
    | none => simp [SharedBranch.deref, haddr, hentries] at h
    | some entries => exact ⟨address, entries, rfl, hentries⟩

/-- A write to one map of the store leaves a branch that refers to another map as it was. -/
theorem SharedBranch.deref_set_of_ne {store : CommitStore} {branch : SharedBranch}
    {address : Nat} (h : branch.Commits ≠ some address) (entries : List (String × Commit)) :
    branch.deref (store.set address entries) = branch.deref store := by
  cases haddr : branch.Commits with
  | none => simp [SharedBranch.deref, haddr]
  | some other =>
    have hne : address ≠ other := by
      intro heq
      rw [haddr, heq] at h
      exact h rfl
    simp [SharedBranch.deref, haddr, List.getElem?_set_ne hne]

/-- The value model and the reference model give the same verdict, the same error and the
same run-time failures for `Branch.AddCommit`. -/
theorem SharedBranch.addCommit_verdict_eq_value (store : CommitStore) (branch : SharedBranch)
    (c : Commit) (f : Bool) :
    (branch.AddCommit store c f).map Prod.fst
      = ((branch.deref store).AddCommit c f).map Prod.fst := by
  by_cases hgo : (((branch.deref store).ValidCommit c).1 || f) = true
  · cases haddr : branch.Commits with
    | none =>
      have hnil : (branch.deref store).Commits = GoMap.nilMap := by
        simp [SharedBranch.deref, haddr]
      simp only [SharedBranch.AddCommit, SharedBranch.ValidCommit, Branch.AddCommit, hgo,
        if_true, haddr, hnil, GoMap.set]
      rfl
    | some address =>
      cases hentries : store[address]? with
      | none =>
        have hnil : (branch.deref store).Commits = GoMap.nilMap := by
          simp [SharedBranch.deref, haddr, hentries]
        simp only [SharedBranch.AddCommit, SharedBranch.ValidCommit, Branch.AddCommit, hgo,
          if_true, haddr, hentries, hnil, GoMap.set]
        rfl
      | some entries =>
        have halloc : (branch.deref store).Commits = GoMap.alloc entries := by
          simp [SharedBranch.deref, haddr, hentries]
        simp only [SharedBranch.AddCommit, SharedBranch.ValidCommit, Branch.AddCommit, hgo,
          if_true, haddr, hentries, halloc, GoMap.set, Option.map_some']
  · simp only [SharedBranch.AddCommit, SharedBranch.ValidCommit, Branch.AddCommit, hgo,
      Bool.false_eq_true, if_false, Option.map_some']

/-- The value model and the reference model give the same verdict, the same error and the
same run-time failures for `Repository.AddCommit`, whatever the sharing of commit maps. -/
theorem SharedRepository.repoAddCommit_verdict_eq_value (repo : SharedRepository) (c : Commit) (b : String)
    (f : Bool) :
    (repo.AddCommit c b f).map Prod.fst = (repo.deref.AddCommit c b f).map Prod.fst := by
  have hgetD : repo.deref.Branches.getD b = (repo.Branches.getD b).deref repo.store := by
    simp only [GoMap.getD, SharedRepository.get?_deref]
    cases repo.Branches.get? b <;> rfl
  have hbranch := SharedBranch.addCommit_verdict_eq_value repo.store (repo.Branches.getD b) c f
  by_cases hgo : ((repo.deref.ValidCommit c b).1 || f) = true
  · simp only [SharedRepository.AddCommit, SharedRepository.ValidCommit, Repository.AddCommit,
      hgo, if_true, hgetD]
    cases hshared : (repo.Branches.getD b).AddCommit repo.store c f with
    | none =>
      cases hvalue : ((repo.Branches.getD b).deref repo.store).AddCommit c f with
      | none => rfl
      | some r => rw [hshared, hvalue] at hbranch; simp at hbranch
    | some r =>
      obtain ⟨⟨done, e⟩, store'⟩ := r
      cases hvalue : ((repo.Branches.getD b).deref repo.store).AddCommit c f with
      | none => rw [hshared, hvalue] at hbranch; simp at hbranch
      | some r' =>
        obtain ⟨⟨done', e'⟩, branch'⟩ := r'
        rw [hshared, hvalue] at hbranch
        simp only [Option.map_some', Option.some.injEq, Prod.mk.injEq] at hbranch
        obtain ⟨hdone, -⟩ := hbranch
        subst hdone
        cases done with
        | false => simp
        | true =>
          simp only [if_true]
          cases hbranches : repo.Branches with
          | nilMap => simp [SharedRepository.deref, hbranches, GoMap.mapValues, GoMap.set]
          | alloc es =>
            cases hhashes : repo.CommitHashes with
            | nilMap =>
              simp [SharedRepository.deref, hbranches, hhashes, GoMap.mapValues, GoMap.set,
                Repository.AddCommitHash]
            | alloc hs =>
              simp [SharedRepository.deref, hbranches, hhashes, GoMap.mapValues, GoMap.set,
                Repository.AddCommitHash]
  · simp only [SharedRepository.AddCommit, SharedRepository.ValidCommit, Repository.AddCommit,
      hgo, Bool.false_eq_true, if_false, Option.map_some']

/-- Claim C5, as stated.  In `nilBranchRepo` the branch `dev` exists with a nil commit map and
the index is empty, so `c1` passes both validations and the assignment into the commit map
fails at run time: the call returns neither false nor true.  The same happens in
`nilIndexRepo` at the assignment into the nil commit index; both are the values of
`sharedNilBranchRepo` and `sharedNilIndexRepo`, on which the call fails likewise.  In
`forkedRepo` the branches `main` and `dev` refer to one commit map: appending `c2` to `main`
returns true and `dev`, another branch, holds `c2` afterwards as well. -/
theorem repo_addCommit_not_atomic :
    nilBranchRepo.BranchExists "dev" = true ∧
      nilBranchRepo.ValidCommit (sampleCommit "c1" [] 5) "dev" = (true, none) ∧
      nilBranchRepo.AddCommit (sampleCommit "c1" [] 5) "dev" false = none ∧
      nilIndexRepo.ValidCommit (sampleCommit "c1" [] 5) "main" = (true, none) ∧
      nilIndexRepo.AddCommit (sampleCommit "c1" [] 5) "main" false = none ∧
      sharedNilBranchRepo.deref = nilBranchRepo ∧
      sharedNilBranchRepo.AddCommit (sampleCommit "c1" [] 5) "dev" false = none ∧
      sharedNilIndexRepo.deref = nilIndexRepo ∧
      sharedNilIndexRepo.AddCommit (sampleCommit "c1" [] 5) "main" false = none ∧
      forkedRepo.deref.Branches.get? "dev"
        = some { Name := "dev", Commits := GoMap.alloc [("c1", sampleCommit "c1" [] 5)] } ∧
      (forkedRepo.AddCommit (sampleCommit "c2" ["c1"] 6) "main" false).map
          (fun r => (r.1, r.2.deref.Branches.get? "dev"))
        = some ((true, none),
            some { Name := "dev",
                   Commits := GoMap.alloc [("c2", sampleCommit "c2" ["c1"] 6),
                                           ("c1", sampleCommit "c1" [] 5)] }) := by
  decide

/-- Claim C5, amended.  Take a repository whose commit index is an allocated map, whose
branch `b`, if there is one, has an allocated commit map, and in which no other branch
refers to the commit map of `b`.  Then `Repository.AddCommit c b false` either returns false
and leaves the repository unchanged, or returns true, and then: `b` named a branch in which
`c.Hash` was absent; afterwards `b` names the same branch with the entry `c.Hash -> c`
added to its commit map; the index is the old index plus `c.Hash`; every other branch, the
access map, the access logs, and the name, author and directoryCID are unchanged.  Branches
are compared as values, each with the contents of its commit map. -/
theorem repo_addCommit_atomic (repo : SharedRepository) (c : Commit) (b : String)
    (hindex : repo.CommitHashes ≠ GoMap.nilMap)
    (hcommits : ∀ branch, repo.Branches.get? b = some branch →
      (branch.deref repo.store).Commits ≠ GoMap.nilMap)
    (hunshared : ∀ branch n other, repo.Branches.get? b = some branch → n ≠ b →
      repo.Branches.get? n = some other → other.Commits ≠ branch.Commits) :
    repo.AddCommit c b false = some ((false, none), repo) ∨
    ∃ repo' branch branch',
      repo.AddCommit c b false = some ((true, none), repo') ∧
      repo.deref.Branches.get? b = some branch ∧
      branch.Commits.get? c.Hash = none ∧
      repo'.deref.Branches.get? b = some branch' ∧
      branch'.Name = branch.Name ∧
      (∀ h, branch'.Commits.get? h = if h = c.Hash then some c else branch.Commits.get? h) ∧
      (∀ h, repo'.CommitHashes.get? h
        = if h = c.Hash then some true else repo.CommitHashes.get? h) ∧
      (∀ n, n ≠ b → repo'.deref.Branches.get? n = repo.deref.Branches.get? n) ∧
      repo'.Access = repo.Access ∧ repo'.AccessLogs = repo.AccessLogs ∧
      repo'.Name = repo.Name ∧ repo'.Author = repo.Author ∧
      repo'.DirectoryCID = repo.DirectoryCID := by
  cases hvalid : (repo.deref.ValidCommit c b).1 with
  | false => left; simp [SharedRepository.AddCommit, SharedRepository.ValidCommit, hvalid]
  | true =>
    obtain ⟨value, hvalue⟩ := Repository.branch_of_validCommit hvalid
    rw [SharedRepository.get?_deref] at hvalue
    cases hshared : repo.Branches.get? b with
    | none => simp [hshared] at hvalue
    | some shared =>
      have hget : repo.Branches.getD b = shared := by simp [GoMap.getD, hshared]
      cases hbv : ((shared.deref repo.store).ValidCommit c).1 with
      | false =>
        left
        simp [SharedRepository.AddCommit, SharedRepository.ValidCommit, hvalid, hget,
          SharedBranch.AddCommit, SharedBranch.ValidCommit, hbv]
      | true =>
        right
        obtain ⟨address, entries, haddress, hentries⟩ :=
          SharedBranch.address_of_deref_ne_nilMap (hcommits shared hshared)
        obtain ⟨branches, hbs⟩ :=
          GoMap.set_isSome_of_contains
            (show repo.Branches.contains b = true by simp [GoMap.contains, hshared]) b shared
        obtain ⟨hashes, hhs⟩ := GoMap.set_eq_some_of_ne_nilMap hindex c.Hash true
        have hlt : address < repo.store.length := by
          by_contra hge
          rw [List.getElem?_eq_none (Nat.le_of_not_lt hge)] at hentries
          simp at hentries
        have hold : (shared.deref repo.store).Commits = GoMap.alloc entries := by
          simp [SharedBranch.deref, haddress, hentries]
        have hnew : (shared.deref (repo.store.set address (putKey c.Hash c entries))).Commits
            = GoMap.alloc (putKey c.Hash c entries) := by
          simp [SharedBranch.deref, haddress, List.getElem?_set_self hlt]
        have habsent : (shared.deref repo.store).Commits.get? c.Hash = none :=
          (GoMap.contains_eq_false_iff _ _).1
            (Branch.commitExists_eq_false_of_validCommit hbv)
        refine ⟨{ repo with
            Branches := branches, CommitHashes := hashes,
            store := repo.store.set address (putKey c.Hash c entries) },
          shared.deref repo.store,
          shared.deref (repo.store.set address (putKey c.Hash c entries)),
          ?_, ?_, habsent, ?_, rfl, ?_, ?_, ?_, rfl, rfl, rfl, rfl, rfl⟩
        · simp [SharedRepository.AddCommit, SharedRepository.ValidCommit, hvalid, hget,
            SharedBranch.AddCommit, SharedBranch.ValidCommit, hbv, haddress, hentries, hbs,
            hhs]
        · rw [SharedRepository.get?_deref, hshared]
          rfl
        · rw [SharedRepository.get?_deref]
          show (branches.get? b).map _ = _
          rw [GoMap.get?_set_self hbs]
          rfl
        · intro h
          rw [hnew, hold]
          by_cases hh : h = c.Hash
          · simp [hh, GoMap.get?, GoMap.entries, lookupKey_putKey_self]
          · simp [hh, GoMap.get?, GoMap.entries, lookupKey_putKey_ne hh]
        · intro h
          by_cases hh : h = c.Hash
          · simp [hh, GoMap.get?_set_self hhs]
          · simp [hh, GoMap.get?_set_ne hhs hh]
        · intro n hn
          rw [SharedRepository.get?_deref, SharedRepository.get?_deref]
          show (branches.get? n).map _ = _
          rw [GoMap.get?_set_ne hbs hn]
          cases hother : repo.Branches.get? n with
          | none => rfl
          | some other =>
            have hne : other.Commits ≠ some address := by
              rw [← haddress]
              exact hunshared shared n other hshared hn hother
            simp only [Option.map_some']
            rw [SharedBranch.deref_set_of_ne hne]

/-- Witness for C5 amended: in `unsharedRepo` the branches `main` and `dev` have a commit map
each; the commit `c2`, child of `c1`, is appended to `main`, the call returns true and `dev`
is as before. -/
theorem repo_addCommit_atomic_witness :
    (unsharedRepo.AddCommit (sampleCommit "c2" ["c1"] 6) "main" false).map
        (fun r => (r.1, r.2.deref.Branches.get? "dev"))
      = some ((true, none), unsharedRepo.deref.Branches.get? "dev") ∧
    unsharedRepo.CommitHashes ≠ GoMap.nilMap ∧
    (∀ branch, unsharedRepo.Branches.get? "main" = some branch →
      (branch.deref unsharedRepo.store).Commits ≠ GoMap.nilMap) ∧
    (∀ branch n other, unsharedRepo.Branches.get? "main" = some branch → n ≠ "main" →
      unsharedRepo.Branches.get? n = some other → other.Commits ≠ branch.Commits) ∧
    (unsharedRepo.AddCommit (sampleCommit "c2" ["c1"] 6) "main" false
        = some ((false, none), unsharedRepo) ∨
      ∃ repo' branch branch',
        unsharedRepo.AddCommit (sampleCommit "c2" ["c1"] 6) "main" false
          = some ((true, none), repo') ∧
        unsharedRepo.deref.Branches.get? "main" = some branch ∧
        branch.Commits.get? (sampleCommit "c2" ["c1"] 6).Hash = none ∧
        repo'.deref.Branches.get? "main" = some branch' ∧
        branch'.Name = branch.Name ∧
        (∀ h, branch'.Commits.get? h
          = if h = (sampleCommit "c2" ["c1"] 6).Hash then some (sampleCommit "c2" ["c1"] 6)
            else branch.Commits.get? h) ∧
        (∀ h, repo'.CommitHashes.get? h
          = if h = (sampleCommit "c2" ["c1"] 6).Hash then some true
            else unsharedRepo.CommitHashes.get? h) ∧
        (∀ n, n ≠ "main" → repo'.deref.Branches.get? n = unsharedRepo.deref.Branches.get? n) ∧
        repo'.Access = unsharedRepo.Access ∧ repo'.AccessLogs = unsharedRepo.AccessLogs ∧
        repo'.Name = unsharedRepo.Name ∧ repo'.Author = unsharedRepo.Author ∧
        repo'.DirectoryCID = unsharedRepo.DirectoryCID) :=
  have hmain : ∀ branch, unsharedRepo.Branches.get? "main" = some branch →
      branch = { Name := "main", Commits := some 0 } := by
    intro branch h
    have h' : (some { Name := "main", Commits := some 0 } : Option SharedBranch)
        = some branch := by
      rw [← h]
      decide
    exact (Option.some.inj h').symm
  have hcommits : ∀ branch, unsharedRepo.Branches.get? "main" = some branch →
      (branch.deref unsharedRepo.store).Commits ≠ GoMap.nilMap := by
    intro branch h
    rw [hmain branch h]
    decide
  have hunshared : ∀ branch n other, unsharedRepo.Branches.get? "main" = some branch →
      n ≠ "main" → unsharedRepo.Branches.get? n = some other →
      other.Commits ≠ branch.Commits := by
    intro branch n other h hn hother
    rw [hmain branch h]
    have hn' : ¬ "main" = n := fun heq => hn heq.symm
    by_cases hdev : "dev" = n
    · subst hdev
      have h' : (some { Name := "dev", Commits := some 1 } : Option SharedBranch)
          = some other := by
        rw [← hother]
        decide
      rw [← Option.some.inj h']
      decide
    · simp [unsharedRepo, GoMap.get?, GoMap.entries, lookupKey, hdev, hn'] at hother
  ⟨by decide, by decide, hcommits, hunshared,
    repo_addCommit_atomic unsharedRepo (sampleCommit "c2" ["c1"] 6) "main" (by decide)
      hcommits hunshared⟩

/-! ## Access control -/

theorem Repository.isOwner_iff (repo : Repository) (user : String) :
    repo.IsOwner user = true ↔ repo.Access.get? user = some OwnerAccess := by
  unfold Repository.IsOwner
  cases repo.Access.get? user <;> simp

/-- The two outcomes of `Repository.UpdateAccess`. -/
theorem Repository.updateAccess_cases (repo : Repository) (authorized : String)
    (level : UserAccess) (authorizer : String) (t : Time) :
    ((repo.Access.get? authorizer = some OwnerAccess ∧ authorizer ≠ authorized ∧
        repo.Access.get? authorized ≠ some level) ∧
      ∃ access, repo.Access.set authorized level = some access ∧
        repo.UpdateAccess authorized level authorizer t
          = some (true, { repo with
              AccessLogs := repo.AccessLogs ++ [⟨authorizer, authorized, t, level⟩],
              Access := access })) ∨
    (¬ (repo.Access.get? authorizer = some OwnerAccess ∧ authorizer ≠ authorized ∧
        repo.Access.get? authorized ≠ some level) ∧
      repo.UpdateAccess authorized level authorizer t = some (false, repo)) := by
  by_cases howner : repo.Access.get? authorizer = some OwnerAccess
  · have hisOwner := (Repository.isOwner_iff repo authorizer).2 howner
    by_cases hsame : repo.Access.get? authorized = some level
    · right
      simp [Repository.UpdateAccess, hisOwner, hsame]
    · by_cases hself : authorizer = authorized
      · right
        refine ⟨fun h => h.2.1 hself, ?_⟩
        cases hget : repo.Access.get? authorized with
        | none => simp [Repository.UpdateAccess, hisOwner, hget, hself]
        | some val =>
          have hval : ¬ val = level := fun h => hsame (by rw [hget, h])
          simp [Repository.UpdateAccess, hisOwner, hget, hval, hself]
      · left
        obtain ⟨access, haccess⟩ :=
          GoMap.set_isSome_of_contains
            (show repo.Access.contains authorizer = true by simp [GoMap.contains, howner])
            authorized level
        refine ⟨⟨howner, hself, hsame⟩, access, haccess, ?_⟩
        cases hget : repo.Access.get? authorized with
        | none => simp [Repository.UpdateAccess, hisOwner, hget, hself, haccess]
        | some val =>
          have hval : ¬ val = level := fun h => hsame (by rw [hget, h])
          simp [Repository.UpdateAccess, hisOwner, hget, hval, hself, haccess]
  · right
    have hisOwner : repo.IsOwner authorizer = false := by
      cases h : repo.IsOwner authorizer with
      | false => rfl
      | true => exact absurd ((Repository.isOwner_iff repo authorizer).1 h) howner
    exact ⟨fun h => howner h.1, by simp [Repository.UpdateAccess, hisOwner]⟩

/-- Claim C6.  `Repository.UpdateAccess` returns true exactly when the authorizer is mapped
to `OwnerAccess`, differs from the authorized user, and the authorized user is not mapped to
exactly the requested level.  When it returns true, the entry `{authorizer, authorized, t,
level}` is appended at the end of the access logs, the authorized user is mapped to the
level, and every other access entry, the branches, the commit index and the name, author
and directoryCID are unchanged; when it does not, it returns false and the repository is
unchanged. -/
theorem updateAccess_spec (repo : Repository) (authorized : String) (level : UserAccess)
    (authorizer : String) (t : Time) :
    ((∃ repo', repo.UpdateAccess authorized level authorizer t = some (true, repo')) ↔
      (repo.Access.get? authorizer = some OwnerAccess ∧ authorizer ≠ authorized ∧
        repo.Access.get? authorized ≠ some level)) ∧
    (∀ repo', repo.UpdateAccess authorized level authorizer t = some (true, repo') →
      repo'.AccessLogs = repo.AccessLogs ++ [⟨authorizer, authorized, t, level⟩] ∧
      repo'.Access.get? authorized = some level ∧
      (∀ u, u ≠ authorized → repo'.Access.get? u = repo.Access.get? u) ∧
      repo'.Branches = repo.Branches ∧ repo'.CommitHashes = repo.CommitHashes ∧
      repo'.Name = repo.Name ∧ repo'.Author = repo.Author ∧
      repo'.DirectoryCID = repo.DirectoryCID) ∧
    (¬ (repo.Access.get? authorizer = some OwnerAccess ∧ authorizer ≠ authorized ∧
        repo.Access.get? authorized ≠ some level) →
      repo.UpdateAccess authorized level authorizer t = some (false, repo)) := by
  rcases Repository.updateAccess_cases repo authorized level authorizer t with
    ⟨hok, access, hset, hres⟩ | ⟨hnot, hres⟩
  · refine ⟨⟨fun _ => hok, fun _ => ⟨_, hres⟩⟩, ?_, fun h => absurd hok h⟩
    intro repo' h
    rw [hres] at h
    simp only [Option.some.injEq, Prod.mk.injEq, true_and] at h
    subst h
    exact ⟨rfl, GoMap.get?_set_self hset, fun u hu => GoMap.get?_set_ne hset hu,
      rfl, rfl, rfl, rfl, rfl⟩
  · refine ⟨⟨?_, fun h => absurd h hnot⟩, ?_, fun _ => hres⟩
    · rintro ⟨repo', h⟩
      rw [hres] at h
      simp at h
    · intro repo' h
      rw [hres] at h
      simp at h

/-- Witness for C6: in `sampleRepo` the owner `alice` grants `bob` read-write access, and
`bob`, who is no owner, cannot grant himself owner access. -/
theorem updateAccess_spec_witness :
    (sampleRepo.UpdateAccess "bob" ReadWriteAccess "alice" ⟨1, 0⟩
      = some (true, { sampleRepo with
          AccessLogs := sampleRepo.AccessLogs ++ [⟨"alice", "bob", ⟨1, 0⟩, ReadWriteAccess⟩],
          Access := GoMap.alloc [("bob", ReadWriteAccess), ("alice", OwnerAccess)] })) ∧
    ¬ (sampleRepo.Access.get? "bob" = some OwnerAccess ∧ "bob" ≠ "bob" ∧
        sampleRepo.Access.get? "bob" ≠ some OwnerAccess) ∧
    sampleRepo.UpdateAccess "bob" OwnerAccess "bob" ⟨2, 0⟩ = some (false, sampleRepo) :=
  ⟨by decide, by decide,
    (updateAccess_spec sampleRepo "bob" OwnerAccess "bob" ⟨2, 0⟩).2.2 (by decide)⟩

/-- Claim C7, at the failing input.  In the fresh repository of `alice` the user `bob` has no
entry, so `GetUserAccess` gives `NoAccess`; granting `bob` the level `NoAccess` nevertheless
returns true, appends a log entry and adds the entry `bob -> NoAccess` to the access map. -/
theorem updateAccess_absent_user_noAccess_accepted :
    freshRepo.GetUserAccess "bob" = NoAccess ∧
    freshRepo.Access.get? "bob" = none ∧
    freshRepo.UpdateAccess "bob" NoAccess "alice" ⟨1, 0⟩
      = some (true, { freshRepo with
          AccessLogs := [⟨"alice", "alice", ⟨0, 0⟩, OwnerAccess⟩,
                         ⟨"alice", "bob", ⟨1, 0⟩, NoAccess⟩],
          Access := GoMap.alloc [("bob", NoAccess), ("alice", OwnerAccess)] }) := by
  decide

theorem lastLoggedAccess_nil (user : String) : lastLoggedAccess [] user = none := rfl

theorem lastLoggedAccess_concat (accessLogs : List AccessLog) (entry : AccessLog)
    (user : String) :
    lastLoggedAccess (accessLogs ++ [entry]) user
      = if entry.Authorized = user then some entry.UserAccess
        else lastLoggedAccess accessLogs user := by
  by_cases h : entry.Authorized = user
  · simp [lastLoggedAccess, List.filter_append, List.filter_cons, h]
  · simp [lastLoggedAccess, List.filter_append, List.filter_cons, h]

theorem lastLoggedAccess_eq_none_iff (accessLogs : List AccessLog) (user : String) :
    lastLoggedAccess accessLogs user = none ↔
      ∀ entry ∈ accessLogs, entry.Authorized ≠ user := by
  simp [lastLoggedAccess, List.getLast?_eq_none_iff, List.filter_eq_nil_iff]

theorem replayAccessLogs_concat (accessLogs : List AccessLog) (entry : AccessLog) :
    replayAccessLogs (accessLogs ++ [entry])
      = putKey entry.Authorized entry.UserAccess (replayAccessLogs accessLogs) := by
  simp [replayAccessLogs, List.foldl_append]

theorem lookupKey_putKey (k k' : String) {V : Type} (v : V) (es : List (String × V)) :
    lookupKey k' (putKey k v es) = if k = k' then some v else lookupKey k' es := by
  by_cases h : k = k'
  · subst h
    simp [lookupKey_putKey_self]
  · have h' : k' ≠ k := fun h₂ => h h₂.symm
    simp [h, lookupKey_putKey_ne h']

theorem lookupKey_replayAccessLogs (accessLogs : List AccessLog) (user : String) :
    lookupKey user (replayAccessLogs accessLogs) = lastLoggedAccess accessLogs user := by
  induction accessLogs using List.reverseRecOn with
  | nil => rfl
  | append_singleton logs entry ih =>
    rw [replayAccessLogs_concat, lastLoggedAccess_concat, lookupKey_putKey, ih]

theorem createNewRepo_accessFromLog (name author directoryCID : String)
    (branches : GoMap Branch) (accessLogs : Option (List AccessLog)) (createdTime : Time) :
    (CreateNewRepo name author directoryCID branches accessLogs createdTime).1.AccessFromLog := by
  intro user
  simp only [CreateNewRepo, GoMap.get?, GoMap.entries]
  exact lookupKey_replayAccessLogs _ user

theorem Repository.updateAccess_accessFromLog {repo : Repository} (hinv : repo.AccessFromLog)
    (authorized : String) (level : UserAccess) (authorizer : String) (t : Time) :
    ∃ verdict repo', repo.UpdateAccess authorized level authorizer t = some (verdict, repo') ∧
      repo'.AccessFromLog := by
  rcases Repository.updateAccess_cases repo authorized level authorizer t with
    ⟨-, access, hset, hres⟩ | ⟨-, hres⟩
  · refine ⟨true, _, hres, ?_⟩
    intro user
    simp only [lastLoggedAccess_concat]
    by_cases hu : authorized = user
    · subst hu
      simp [GoMap.get?_set_self hset]
    · have hu' : user ≠ authorized := fun h => hu h.symm
      simp [hu, GoMap.get?_set_ne hset hu', hinv user]
  · exact ⟨false, repo, hres, hinv⟩

theorem Repository.updateAccessAll_accessFromLog (calls : List UpdateAccessCall) :
    ∀ repo : Repository, repo.AccessFromLog →
      ∃ repo', repo.updateAccessAll calls = some repo' ∧ repo'.AccessFromLog := by
  induction calls with
  | nil => exact fun repo hinv => ⟨repo, rfl, hinv⟩
  | cons call calls ih =>
    intro repo hinv
    obtain ⟨verdict, repo₁, hstep, hinv₁⟩ :=
      Repository.updateAccess_accessFromLog hinv call.authorized call.userAccess call.authorizer
        call.timestamp
    obtain ⟨repo', hrest, hinv'⟩ := ih repo₁ hinv₁
    exact ⟨repo', by simp [Repository.updateAccessAll, hstep, hrest], hinv'⟩

/-- Claim C8.  Take the repository returned by `CreateNewRepo`, for any supplied access logs
or none, and make any sequence of `UpdateAccess` calls on it.  No call fails at run time,
and in the resulting repository, for every user: the entry of the access map is the access
level of the last log entry whose `Authorized` is that user; if there is such a log entry
the user is mapped to its level, and if there is none the user is absent from the map and
`GetUserAccess` gives `NoAccess`. -/
theorem access_derived_from_log (name author directoryCID : String) (branches : GoMap Branch)
    (accessLogs : Option (List AccessLog)) (createdTime : Time)
    (calls : List UpdateAccessCall) :
    ∃ repo,
      (CreateNewRepo name author directoryCID branches accessLogs createdTime).1.updateAccessAll
        calls = some repo ∧
      ∀ user,
        repo.Access.get? user = lastLoggedAccess repo.AccessLogs user ∧
        (∀ earlier entry later, repo.AccessLogs = earlier ++ entry :: later →
          entry.Authorized = user → (∀ e ∈ later, e.Authorized ≠ user) →
          repo.Access.get? user = some entry.UserAccess) ∧
        ((∀ entry ∈ repo.AccessLogs, entry.Authorized ≠ user) →
          repo.Access.get? user = none ∧ repo.GetUserAccess user = NoAccess) := by
  obtain ⟨repo, hrun, hinv⟩ :=
    Repository.updateAccessAll_accessFromLog calls _
      (createNewRepo_accessFromLog name author directoryCID branches accessLogs createdTime)
  refine ⟨repo, hrun, fun user => ⟨hinv user, ?_, ?_⟩⟩
  · intro earlier entry later hlogs hentry hlater
    rw [hinv user, hlogs]
    have hnil : List.filter (fun e : AccessLog => decide (e.Authorized = user)) later = [] := by
      simpa [List.filter_eq_nil_iff] using hlater
    simp [lastLoggedAccess, List.filter_append, List.filter_cons, hentry, hnil]
  · intro hnone
    have hget : repo.Access.get? user = none := by
      rw [hinv user]
      exact (lastLoggedAccess_eq_none_iff _ _).2 hnone
    exact ⟨hget, by simp [Repository.GetUserAccess, hget]⟩

/-! ## Branch lifecycle -/

theorem GoMap.eq_alloc_of_contains {V : Type} {m : GoMap V} {k : String}
    (h : m.contains k = true) : ∃ es, m = GoMap.alloc es := by
  cases m with
  | nilMap => simp [GoMap.contains, GoMap.get?, GoMap.entries, lookupKey] at h
  | alloc es => exact ⟨es, rfl⟩

/-- Claim C9.  `Repository.UpdateBranchName br n` returns true exactly when `br.Name` names a
branch of the repository, `br.Name` is not `main`, `n` is not `main` and `n` names no
branch; in every other case it returns false with a non-nil error and the repository is
unchanged. -/
theorem updateBranchName_spec (repo : Repository) (br : Branch) (n : String) :
    ((∃ err repo', repo.UpdateBranchName br n = some ((true, err), repo')) ↔
      (repo.BranchExists br.Name = true ∧ br.Name ≠ "main" ∧ n ≠ "main" ∧
        repo.BranchExists n = false)) ∧
    (¬ (repo.BranchExists br.Name = true ∧ br.Name ≠ "main" ∧ n ≠ "main" ∧
        repo.BranchExists n = false) →
      ∃ msg, repo.UpdateBranchName br n = some ((false, some msg), repo)) := by
  by_cases hok : repo.BranchExists br.Name = true ∧ br.Name ≠ "main" ∧ n ≠ "main" ∧
      repo.BranchExists n = false
  · obtain ⟨hex, hold, hnew, hfree⟩ := hok
    obtain ⟨es, hes⟩ := GoMap.eq_alloc_of_contains hex
    refine ⟨⟨fun _ => ⟨hex, hold, hnew, hfree⟩, fun _ => ?_⟩,
      fun h => absurd ⟨hex, hold, hnew, hfree⟩ h⟩
    refine ⟨none, { repo with Branches := GoMap.alloc (putKey n
      { repo.Branches.getD br.Name with Name := n }
      (eraseKey (repo.Branches.getD br.Name).Name es)) }, ?_⟩
    simp [Repository.UpdateBranchName, hex, hold, hnew, hfree, hes, GoMap.delete, GoMap.set]
  · have hres : repo.UpdateBranchName br n
        = some ((false, some ("Branch " ++ br.Name ++ " not valid!")), repo) := by
      unfold Repository.UpdateBranchName
      by_cases hguard : (repo.BranchExists br.Name && br.Name != "main" && n != "main") = true
      · have hfree : ¬ repo.BranchExists n = false := by
          intro hfree
          simp only [Bool.and_eq_true, bne_iff_ne, ne_eq] at hguard
          exact hok ⟨hguard.1.1, hguard.1.2, hguard.2, hfree⟩
        have hexists : repo.BranchExists n = true := by simpa using hfree
        simp only [hguard, if_true]
        simp [hexists]
      · simp only [hguard]
        simp
    refine ⟨⟨?_, fun h => absurd h hok⟩, fun _ => ⟨_, hres⟩⟩
    rintro ⟨err, repo', h⟩
    rw [hres] at h
    simp at h

/-- Witness for C9: in `sampleRepo`, whose only branch is `main`, renaming `main` to `dev`
is rejected with an error and changes nothing. -/
theorem updateBranchName_spec_witness :
    ¬ (sampleRepo.BranchExists sampleBranch.Name = true ∧ sampleBranch.Name ≠ "main" ∧
        "dev" ≠ "main" ∧ sampleRepo.BranchExists "dev" = false) ∧
    ∃ msg, sampleRepo.UpdateBranchName sampleBranch "dev" = some ((false, some msg), sampleRepo) :=
  ⟨by decide, (updateBranchName_spec sampleRepo sampleBranch "dev").2 (by decide)⟩

/-- Claim C10.  `Repository.DeleteBranch n` returns true exactly when `n` names a branch and
is not `main`.  When it returns true the error is nil, `n` no longer names a branch, and
every other branch, the commit index, the access map, the access logs and the name, author
and directoryCID are unchanged; when it returns false the error is non-nil and the
repository is unchanged. -/
theorem deleteBranch_spec (repo : Repository) (n : String) :
    ((repo.DeleteBranch n).1.1 = true ↔ (repo.BranchExists n = true ∧ n ≠ "main")) ∧
    ((repo.DeleteBranch n).1.1 = true →
      (repo.DeleteBranch n).1.2 = none ∧
      (repo.DeleteBranch n).2.BranchExists n = false ∧
      (∀ other, other ≠ n →
        (repo.DeleteBranch n).2.Branches.get? other = repo.Branches.get? other) ∧
      (repo.DeleteBranch n).2.CommitHashes = repo.CommitHashes ∧
      (repo.DeleteBranch n).2.Access = repo.Access ∧
      (repo.DeleteBranch n).2.AccessLogs = repo.AccessLogs ∧
      (repo.DeleteBranch n).2.Name = repo.Name ∧
      (repo.DeleteBranch n).2.Author = repo.Author ∧
      (repo.DeleteBranch n).2.DirectoryCID = repo.DirectoryCID) ∧
    ((repo.DeleteBranch n).1.1 = false →
      (repo.DeleteBranch n).1.2 ≠ none ∧ (repo.DeleteBranch n).2 = repo) := by
  by_cases hok : (repo.BranchExists n && n != "main") = true
  · have hres : repo.DeleteBranch n
        = ((true, none), { repo with Branches := repo.Branches.delete n }) := by
      simp only [Repository.DeleteBranch, hok, if_true]
    have hok' : repo.BranchExists n = true ∧ n ≠ "main" := by
      simpa only [Bool.and_eq_true, bne_iff_ne, ne_eq] using hok
    rw [hres]
    refine ⟨⟨fun _ => hok', fun _ => rfl⟩, fun _ => ⟨rfl, ?_, ?_, rfl, rfl, rfl, rfl, rfl, rfl⟩,
      fun h => by simp at h⟩
    · simp [Repository.BranchExists, GoMap.contains, GoMap.get?_delete_self]
    · intro other hother
      exact GoMap.get?_delete_ne _ hother
  · have hres : repo.DeleteBranch n
        = ((false, some ("Branch " ++ n ++ " does not exist for repo " ++ repo.Name ++ "!")),
            repo) := by
      simp only [Repository.DeleteBranch, hok]
      simp
    have hok' : ¬ (repo.BranchExists n = true ∧ n ≠ "main") := by
      simpa only [Bool.and_eq_true, bne_iff_ne, ne_eq] using hok
    rw [hres]
    exact ⟨⟨fun h => by simp at h, fun h => absurd h hok'⟩, fun h => by simp at h,
      fun _ => ⟨by simp, rfl⟩⟩

/-- Witness for C10: `sampleRepo` with a second branch `dev`; deleting `dev` succeeds and
`main` is still there, while deleting `main` is refused. -/
theorem deleteBranch_spec_witness :
    (({ sampleRepo with
        Branches := GoMap.alloc [("dev", ⟨"dev", GoMap.make⟩), ("main", sampleBranch)] }
      : Repository).DeleteBranch "dev").1.1 = true ∧
    (({ sampleRepo with
        Branches := GoMap.alloc [("dev", ⟨"dev", GoMap.make⟩), ("main", sampleBranch)] }
      : Repository).DeleteBranch "dev").2.BranchExists "dev" = false ∧
    (sampleRepo.DeleteBranch "main").1.1 = false ∧
    (sampleRepo.DeleteBranch "main").1.2 ≠ none ∧ (sampleRepo.DeleteBranch "main").2 = sampleRepo :=
  ⟨by decide,
    ((deleteBranch_spec _ "dev").2.1 (by decide)).2.1,
    by decide,
    ((deleteBranch_spec sampleRepo "main").2.2 (by decide)).1,
    ((deleteBranch_spec sampleRepo "main").2.2 (by decide)).2⟩

/-! ## Branch-level validation: bootstrap and missing first parent -/

/-- Claim C12.  On a branch with zero commits `Branch.ValidCommit` returns `(true, nil)` for
every commit, whatever its parent hashes and time stamp. -/
theorem validCommit_bootstrap (branch : Branch) (c : Commit)
    (hempty : branch.Commits.len = 0) : branch.ValidCommit c = (true, none) := by
  have hc : branch.CommitExists c.Hash = false := by
    simp [Branch.CommitExists, GoMap.contains, GoMap.get?_eq_none_of_len_eq_zero hempty]
  simp [Branch.ValidCommit, hc, hempty]

/-- Witness for C12: the empty branch `main` and a commit `c1` that lists itself and the
unknown hash `zz` as parents. -/
theorem validCommit_bootstrap_witness :
    (Branch.mk "main" GoMap.make).Commits.len = 0 ∧
      (Branch.mk "main" GoMap.make).ValidCommit (sampleCommit "c1" ["c1", "zz"] 5)
        = (true, none) :=
  ⟨by decide,
    validCommit_bootstrap (Branch.mk "main" GoMap.make) (sampleCommit "c1" ["c1", "zz"] 5)
      (by decide)⟩

/-- Claim C13.  On a non-empty branch, for a commit `c` whose hash is not in the branch and
whose first parent hash `p` is not in the branch, `Branch.ValidCommit` returns false with the
error "Previous commit p not valid for branch name!", a message that contains `p`; the parent
hashes after the first are not looked at, so any list of them gives the same result. -/
theorem validCommit_first_parent_missing (branch : Branch) (c : Commit) (p : String)
    (rest : List String)
    (hnonempty : branch.Commits.len ≠ 0)
    (hc : branch.CommitExists c.Hash = false)
    (hparents : c.ParentHashes = p :: rest)
    (hp : branch.CommitExists p = false) :
    branch.ValidCommit c
        = (false, some ("Previous commit " ++ p ++ " not valid for branch "
            ++ branch.Name ++ "!")) ∧
      (∃ before after, (branch.ValidCommit c).2 = some (before ++ p ++ after)) ∧
      ∀ others : List String,
        branch.ValidCommit { c with ParentHashes := p :: others } = branch.ValidCommit c := by
  have hval : ∀ others : List String,
      branch.ValidCommit { c with ParentHashes := p :: others }
        = (false, some ("Previous commit " ++ p ++ " not valid for branch "
            ++ branch.Name ++ "!")) := by
    intro others
    simp [Branch.ValidCommit, hc, hnonempty, hp]
  have hself : branch.ValidCommit c
      = (false, some ("Previous commit " ++ p ++ " not valid for branch "
          ++ branch.Name ++ "!")) := by
    have h := hval rest
    rw [← hparents] at h
    exact h
  refine ⟨hself, ⟨"Previous commit ", " not valid for branch " ++ branch.Name ++ "!", ?_⟩, ?_⟩
  · rw [hself]
    simp [String.append_assoc]
  · intro others
    rw [hval others, hself]

/-- Witness for C13: `sampleBranch` holds `c1` at 5 ms; the commit `c3`, made at 9 ms, lists
the unknown `zz` first and `c1` second. -/
theorem validCommit_first_parent_missing_witness :
    sampleBranch.Commits.len ≠ 0 ∧
      sampleBranch.CommitExists (sampleCommit "c3" ["zz", "c1"] 9).Hash = false ∧
      sampleBranch.CommitExists "zz" = false ∧
      sampleBranch.CommitExists "c1" = true ∧
      sampleBranch.ValidCommit (sampleCommit "c3" ["zz", "c1"] 9)
        = (false, some "Previous commit zz not valid for branch main!") :=
  ⟨by decide, by decide, by decide, by decide,
    (validCommit_first_parent_missing sampleBranch (sampleCommit "c3" ["zz", "c1"] 9) "zz" ["c1"]
      (by decide) (by decide) rfl (by decide)).1⟩

/-! ## Branch-level append -/

/-- Claim C14, as stated.  The branch value `Branch{Name: "dev"}` has a nil commit map:
`Branch.ValidCommit` accepts `c1`, and `Branch.AddCommit` then fails at run time in the
assignment to the nil map, with either flag, instead of returning true. -/
theorem branch_addCommit_nil_commit_map_fails :
    (Branch.mk "dev" GoMap.nilMap).ValidCommit (sampleCommit "c1" [] 5) = (true, none) ∧
      (Branch.mk "dev" GoMap.nilMap).AddCommit (sampleCommit "c1" [] 5) false = none ∧
      (Branch.mk "dev" GoMap.nilMap).AddCommit (sampleCommit "c1" [] 5) true = none := by
  decide

/-- Claim C14, amended.  For a branch whose commit map is allocated, `Branch.AddCommit c f`
returns true exactly when `Branch.ValidCommit c` returns true or `f` is set; when it returns
true the error is nil, the name is kept, and the commit map afterwards maps `c.Hash` to `c`
and agrees with the old map on every other hash; otherwise it returns false with a nil error
and the branch is unchanged. -/
theorem branch_addCommit_spec (branch : Branch) (c : Commit) (f : Bool)
    (halloc : branch.Commits ≠ GoMap.nilMap) :
    ((∃ err branch', branch.AddCommit c f = some ((true, err), branch')) ↔
      ((branch.ValidCommit c).1 = true ∨ f = true)) ∧
    (∀ err branch', branch.AddCommit c f = some ((true, err), branch') →
      err = none ∧ branch'.Name = branch.Name ∧
      branch'.Commits.get? c.Hash = some c ∧
      ∀ h, h ≠ c.Hash → branch'.Commits.get? h = branch.Commits.get? h) ∧
    (¬ ((branch.ValidCommit c).1 = true ∨ f = true) →
      branch.AddCommit c f = some ((false, none), branch)) := by
  have heffect : ∀ err branch', branch.AddCommit c f = some ((true, err), branch') →
      err = none ∧ branch'.Name = branch.Name ∧
      branch'.Commits.get? c.Hash = some c ∧
      ∀ h, h ≠ c.Hash → branch'.Commits.get? h = branch.Commits.get? h := by
    intro err branch' h
    obtain ⟨herr, hname, hset⟩ := Branch.addCommit_eq_some_true h
    exact ⟨herr, hname, GoMap.get?_set_self hset, fun h hh => GoMap.get?_set_ne hset hh⟩
  by_cases hgo : ((branch.ValidCommit c).1 || f) = true
  · have hgo' : (branch.ValidCommit c).1 = true ∨ f = true := by
      simpa only [Bool.or_eq_true] using hgo
    obtain ⟨commits, hcommits⟩ := GoMap.set_eq_some_of_ne_nilMap halloc c.Hash c
    have hres : branch.AddCommit c f
        = some ((true, none), { branch with Commits := commits }) := by
      simp only [Branch.AddCommit, hgo, if_true, hcommits]
    exact ⟨⟨fun _ => hgo', fun _ => ⟨_, _, hres⟩⟩, heffect, fun h => absurd hgo' h⟩
  · have hgo' : ¬ ((branch.ValidCommit c).1 = true ∨ f = true) := by
      simpa only [Bool.or_eq_true] using hgo
    have hres : branch.AddCommit c f = some ((false, none), branch) := by
      simp only [Branch.AddCommit, hgo]
      simp
    refine ⟨⟨?_, fun h => absurd h hgo'⟩, heffect, fun _ => hres⟩
    rintro ⟨err, branch', h⟩
    rw [hres] at h
    simp at h

/-- Witness for C14 amended: on `sampleBranch` the commit `c2`, child of `c1` and later than
it, is added; the commit `c0`, earlier than its parent `c1`, is refused without the flag. -/
theorem branch_addCommit_spec_witness :
    sampleBranch.Commits ≠ GoMap.nilMap ∧
    (∃ err branch', sampleBranch.AddCommit (sampleCommit "c2" ["c1"] 6) false
      = some ((true, err), branch')) ∧
    sampleBranch.AddCommit (sampleCommit "c0" ["c1"] 4) false = some ((false, none), sampleBranch) :=
  ⟨by decide,
    (branch_addCommit_spec sampleBranch (sampleCommit "c2" ["c1"] 6) false (by decide)).1.2
      (Or.inl (by decide)),
    (branch_addCommit_spec sampleBranch (sampleCommit "c0" ["c1"] 4) false (by decide)).2.2
      (by decide)⟩

/-! ## Appending a list of commits -/

theorem Repository.addCommit_outcome {repo repo' : Repository} {c : Commit} {b : String}
    {f verdict : Bool} {err : Option String}
    (h : repo.AddCommit c b f = some ((verdict, err), repo')) :
    err = none ∧ (verdict = false → repo' = repo) := by
  unfold Repository.AddCommit at h
  split at h
  · cases hb : (repo.Branches.getD b).AddCommit c f with
    | none => simp [hb] at h
    | some r =>
      obtain ⟨⟨done, e⟩, br⟩ := r
      simp only [hb] at h
      cases done with
      | false =>
        simp only [Bool.false_eq_true, if_false, Option.some.injEq, Prod.mk.injEq] at h
        obtain ⟨⟨hv, he⟩, hr⟩ := h
        exact ⟨he.symm, fun _ => hr.symm⟩
      | true =>
        simp only [if_true] at h
        cases hs : repo.Branches.set b br with
        | none => simp [hs] at h
        | some branches =>
          simp only [hs] at h
          cases hh : ({ repo with Branches := branches } : Repository).AddCommitHash c with
          | none => simp [hh] at h
          | some r₂ =>
            obtain ⟨v₂, repo₂⟩ := r₂
            simp only [hh, Option.some.injEq, Prod.mk.injEq] at h
            obtain ⟨⟨hv, he⟩, -⟩ := h
            exact ⟨he.symm, fun hf => by rw [← hv] at hf; simp at hf⟩
  · simp only [Option.some.injEq, Prod.mk.injEq] at h
    obtain ⟨⟨hv, he⟩, hr⟩ := h
    exact ⟨he.symm, fun _ => hr.symm⟩

theorem Repository.addCommits_cons_of_accepted {repo repo₁ : Repository} {c : Commit}
    {b : String} {f : Bool} {err : Option String}
    (h : repo.AddCommit c b f = some ((true, err), repo₁)) (rest : List Commit) :
    repo.AddCommits (c :: rest) b f = repo₁.AddCommits rest b f := by
  simp [Repository.AddCommits, h]

theorem Repository.addCommits_cons_of_rejected {repo repo₁ : Repository} {c : Commit}
    {b : String} {f : Bool} {err : Option String}
    (h : repo.AddCommit c b f = some ((false, err), repo₁)) (rest : List Commit) :
    repo.AddCommits (c :: rest) b f
      = some ((false, some ("Could not add commit " ++ c.Hash ++ "!")), repo) := by
  have hrepo : repo₁ = repo := (Repository.addCommit_outcome h).2 rfl
  simp [Repository.AddCommits, h, hrepo]

theorem Repository.addCommits_cons_of_failed {repo : Repository} {c : Commit}
    {b : String} {f : Bool} (h : repo.AddCommit c b f = none) (rest : List Commit) :
    repo.AddCommits (c :: rest) b f = none := by
  simp [Repository.AddCommits, h]

theorem Repository.acceptAll_cons_of_accepted {repo repo₁ : Repository} {c : Commit}
    {b : String} {f : Bool} {err : Option String}
    (h : repo.AddCommit c b f = some ((true, err), repo₁)) (rest : List Commit) :
    repo.acceptAll (c :: rest) b f = repo₁.acceptAll rest b f := by
  simp [Repository.acceptAll, h]

theorem Repository.acceptAll_cons_of_not_accepted {repo : Repository} {c : Commit}
    {b : String} {f : Bool}
    (h : ∀ err repo₁, repo.AddCommit c b f ≠ some ((true, err), repo₁)) (rest : List Commit) :
    repo.acceptAll (c :: rest) b f = none := by
  unfold Repository.acceptAll
  split
  · next err repo' heq => exact absurd heq (h err repo')
  · rfl

/-- The three possible outcomes of one `Repository.AddCommit` call. -/
theorem Repository.addCommit_trichotomy (repo : Repository) (c : Commit) (b : String)
    (f : Bool) :
    (∃ repo₁, repo.AddCommit c b f = some ((true, none), repo₁)) ∨
    repo.AddCommit c b f = some ((false, none), repo) ∨
    repo.AddCommit c b f = none := by
  cases h : repo.AddCommit c b f with
  | none => exact Or.inr (Or.inr rfl)
  | some r =>
    obtain ⟨⟨verdict, err⟩, repo₁⟩ := r
    obtain ⟨herr, hrepo⟩ := Repository.addCommit_outcome h
    subst herr
    cases verdict with
    | true => exact Or.inl ⟨repo₁, rfl⟩
    | false => rw [hrepo rfl]; exact Or.inr (Or.inl rfl)

theorem Repository.addCommits_true_iff (commits : List Commit) (b : String) (f : Bool) :
    ∀ (repo repo' : Repository) (err : Option String),
      repo.AddCommits commits b f = some ((true, err), repo') ↔
        (err = none ∧ repo.acceptAll commits b f = some repo') := by
  induction commits with
  | nil =>
    intro repo repo' err
    simp only [Repository.AddCommits, Repository.acceptAll, Option.some.injEq, Prod.mk.injEq,
      true_and]
    constructor
    · rintro ⟨h₁, h₂⟩; exact ⟨h₁.symm, h₂⟩
    · rintro ⟨h₁, h₂⟩; exact ⟨h₁.symm, h₂⟩
  | cons c rest ih =>
    intro repo repo' err
    rcases Repository.addCommit_trichotomy repo c b f with ⟨repo₁, h⟩ | h | h
    · rw [Repository.addCommits_cons_of_accepted h, Repository.acceptAll_cons_of_accepted h]
      exact ih repo₁ repo' err
    · rw [Repository.addCommits_cons_of_rejected h,
        Repository.acceptAll_cons_of_not_accepted (by simp [h])]
      simp
    · rw [Repository.addCommits_cons_of_failed h,
        Repository.acceptAll_cons_of_not_accepted (by simp [h])]
      simp

theorem Repository.addCommits_first_rejected (before : List Commit) (c : Commit)
    (after : List Commit) (b : String) (f : Bool) :
    ∀ (repo repo₁ : Repository), repo.acceptAll before b f = some repo₁ →
      repo₁.AddCommit c b f = some ((false, none), repo₁) →
      repo.AddCommits (before ++ c :: after) b f
        = some ((false, some ("Could not add commit " ++ c.Hash ++ "!")), repo₁) := by
  induction before with
  | nil =>
    intro repo repo₁ hacc hrej
    simp only [Repository.acceptAll, Option.some.injEq] at hacc
    subst hacc
    exact Repository.addCommits_cons_of_rejected hrej after
  | cons c₀ rest ih =>
    intro repo repo₁ hacc hrej
    rcases Repository.addCommit_trichotomy repo c₀ b f with ⟨repo₀, h⟩ | h | h
    · rw [Repository.acceptAll_cons_of_accepted h] at hacc
      rw [List.cons_append, Repository.addCommits_cons_of_accepted h]
      exact ih repo₀ repo₁ hacc hrej
    · rw [Repository.acceptAll_cons_of_not_accepted (by simp [h])] at hacc
      simp at hacc
    · rw [Repository.acceptAll_cons_of_not_accepted (by simp [h])] at hacc
      simp at hacc

theorem Repository.addCommits_false_split (commits : List Commit) (b : String) (f : Bool) :
    ∀ (repo repo' : Repository) (err : Option String),
      repo.AddCommits commits b f = some ((false, err), repo') →
      ∃ before c after, commits = before ++ c :: after ∧
        repo.acceptAll before b f = some repo' ∧
        repo'.AddCommit c b f = some ((false, none), repo') ∧
        err = some ("Could not add commit " ++ c.Hash ++ "!") := by
  induction commits with
  | nil =>
    intro repo repo' err h
    simp [Repository.AddCommits] at h
  | cons c₀ rest ih =>
    intro repo repo' err h
    rcases Repository.addCommit_trichotomy repo c₀ b f with ⟨repo₀, h₀⟩ | h₀ | h₀
    · rw [Repository.addCommits_cons_of_accepted h₀] at h
      obtain ⟨before, c, after, hsplit, hacc, hrej, herr⟩ := ih repo₀ repo' err h
      refine ⟨c₀ :: before, c, after, by rw [hsplit, List.cons_append], ?_, hrej, herr⟩
      rw [Repository.acceptAll_cons_of_accepted h₀]
      exact hacc
    · rw [Repository.addCommits_cons_of_rejected h₀] at h
      simp only [Option.some.injEq, Prod.mk.injEq, true_and] at h
      obtain ⟨herr, hrepo⟩ := h
      subst hrepo
      exact ⟨[], c₀, rest, rfl, rfl, h₀, herr.symm⟩
    · rw [Repository.addCommits_cons_of_failed h₀] at h
      simp at h

theorem Repository.addCommits_none_split (commits : List Commit) (b : String) (f : Bool) :
    ∀ (repo : Repository), repo.AddCommits commits b f = none →
      ∃ before c after repo₁, commits = before ++ c :: after ∧
        repo.acceptAll before b f = some repo₁ ∧ repo₁.AddCommit c b f = none := by
  induction commits with
  | nil =>
    intro repo h
    simp [Repository.AddCommits] at h
  | cons c₀ rest ih =>
    intro repo h
    rcases Repository.addCommit_trichotomy repo c₀ b f with ⟨repo₀, h₀⟩ | h₀ | h₀
    · rw [Repository.addCommits_cons_of_accepted h₀] at h
      obtain ⟨before, c, after, repo₁, hsplit, hacc, hfail⟩ := ih repo₀ h
      refine ⟨c₀ :: before, c, after, repo₁, by rw [hsplit, List.cons_append], ?_, hfail⟩
      rw [Repository.acceptAll_cons_of_accepted h₀]
      exact hacc
    · rw [Repository.addCommits_cons_of_rejected h₀] at h
      simp at h
    · exact ⟨[], c₀, rest, repo, rfl, rfl, h₀⟩

/-- Claim C11, as stated.  In the fresh repository no branch `dev` exists; with
`passValidation = true` the first `AddCommit` call assigns into the nil commit map of the
zero-value branch and fails at run time, so `AddCommits` returns neither `(true, nil)` nor
false with an error.  The same happens, without the flag, on the branch of `nilBranchRepo`
whose commit map is nil. -/
theorem repo_addCommits_runtime_failure :
    freshRepo.BranchExists "dev" = false ∧
      freshRepo.AddCommits [sampleCommit "c1" [] 5] "dev" true = none ∧
      nilBranchRepo.AddCommits [sampleCommit "c1" [] 5] "dev" false = none := by
  decide

/-- Claim C11, amended.  `Repository.AddCommits` applies `Repository.AddCommit` to the commits
in list order.  It returns true, and then with a nil error, exactly when every commit is
accepted in turn, and the repository afterwards is the one after all of them; on the empty
list it returns `(true, nil)` and changes nothing.  When the commits before some commit `c`
are accepted in turn and `AddCommit` returns false for `c`, it returns false with the error
"Could not add commit c.Hash!" and the repository is the one after the commits before `c`,
whatever follows `c` in the list; every false verdict arises in this way.  The only other
outcome is that one of the `AddCommit` calls, reached after accepted ones, fails at run
time. -/
theorem repo_addCommits_spec (repo : Repository) (commits : List Commit) (b : String)
    (f : Bool) :
    (∀ err repo', repo.AddCommits commits b f = some ((true, err), repo') ↔
      (err = none ∧ repo.acceptAll commits b f = some repo')) ∧
    repo.AddCommits [] b f = some ((true, none), repo) ∧
    (∀ before c after repo₁, commits = before ++ c :: after →
      repo.acceptAll before b f = some repo₁ →
      (∃ err r, repo₁.AddCommit c b f = some ((false, err), r)) →
      repo.AddCommits commits b f
        = some ((false, some ("Could not add commit " ++ c.Hash ++ "!")), repo₁)) ∧
    (∀ err repo', repo.AddCommits commits b f = some ((false, err), repo') →
      ∃ before c after, commits = before ++ c :: after ∧
        repo.acceptAll before b f = some repo' ∧
        repo'.AddCommit c b f = some ((false, none), repo') ∧
        err = some ("Could not add commit " ++ c.Hash ++ "!")) ∧
    (repo.AddCommits commits b f = none →
      ∃ before c after repo₁, commits = before ++ c :: after ∧
        repo.acceptAll before b f = some repo₁ ∧ repo₁.AddCommit c b f = none) := by
  refine ⟨fun err repo' => Repository.addCommits_true_iff commits b f repo repo' err, rfl,
    ?_, fun err repo' => Repository.addCommits_false_split commits b f repo repo' err,
    Repository.addCommits_none_split commits b f repo⟩
  rintro before c after repo₁ hsplit hacc ⟨err, r, hrej⟩
  obtain ⟨herr, hrepo⟩ := Repository.addCommit_outcome hrej
  rw [herr, hrepo rfl] at hrej
  rw [hsplit]
  exact Repository.addCommits_first_rejected before c after b f repo repo₁ hacc hrej

/-- Witness for C11 amended: on the fresh repository, `c1` is accepted (the repository is
then `sampleRepo`), `c2` is earlier than its parent `c1` and is rejected, and `c3` is never
tried. -/
theorem repo_addCommits_spec_witness :
    freshRepo.acceptAll [sampleCommit "c1" [] 5] "main" false = some sampleRepo ∧
    sampleRepo.AddCommit (sampleCommit "c2" ["c1"] 4) "main" false
      = some ((false, none), sampleRepo) ∧
    freshRepo.AddCommits
        [sampleCommit "c1" [] 5, sampleCommit "c2" ["c1"] 4, sampleCommit "c3" ["c1"] 9]
        "main" false
      = some ((false, some ("Could not add commit " ++ (sampleCommit "c2" ["c1"] 4).Hash
          ++ "!")), sampleRepo) :=
  ⟨by decide, by decide,
    (repo_addCommits_spec freshRepo
      [sampleCommit "c1" [] 5, sampleCommit "c2" ["c1"] 4, sampleCommit "c3" ["c1"] 9]
      "main" false).2.2.1
      [sampleCommit "c1" [] 5] (sampleCommit "c2" ["c1"] 4) [sampleCommit "c3" ["c1"] 9]
      sampleRepo rfl (by decide) ⟨none, sampleRepo, by decide⟩⟩

/-! ## Adding a branch -/

theorem GoMap.mem_values_iff {V : Type} (m : GoMap V) (v : V) :
    v ∈ m.values ↔ ∃ k, m.get? k = some v := by
  simp only [GoMap.values, GoMap.bindings, List.mem_map, List.mem_filterMap, Option.map_eq_some',
    Prod.exists, GoMap.keys, List.mem_dedup]
  constructor
  · rintro ⟨k, v', ⟨k₀, -, v₀, hget, heq⟩, rfl⟩
    simp only [Prod.mk.injEq] at heq
    obtain ⟨rfl, rfl⟩ := heq
    exact ⟨k₀, hget⟩
  · rintro ⟨k, hget⟩
    refine ⟨k, v, ⟨k, ?_, v, hget, rfl⟩, rfl⟩
    have hlookup : lookupKey k m.entries = some v := hget
    have hmem : k ∈ m.entries.map Prod.fst :=
      (lookupKey_isSome_iff k m.entries).1 (by simp [hlookup])
    simpa using hmem

theorem Repository.addCommitHash_eq_some {repo repo' : Repository} {c : Commit} {v : Bool}
    (h : repo.AddCommitHash c = some (v, repo')) :
    ∃ hashes, repo.CommitHashes.set c.Hash true = some hashes ∧
      repo' = { repo with CommitHashes := hashes } := by
  unfold Repository.AddCommitHash at h
  cases hs : repo.CommitHashes.set c.Hash true with
  | none => simp [hs] at h
  | some hashes =>
    simp only [hs, Option.some.injEq, Prod.mk.injEq] at h
    exact ⟨hashes, rfl, h.2.symm⟩

theorem Repository.commitExists_addCommitHash {repo repo' : Repository} {c : Commit} {v : Bool}
    (h : repo.AddCommitHash c = some (v, repo')) (hash : String) :
    repo'.CommitExists hash = true ↔ (repo.CommitExists hash = true ∨ c.Hash = hash) := by
  obtain ⟨hashes, hset, rfl⟩ := Repository.addCommitHash_eq_some h
  by_cases hh : hash = c.Hash
  · subst hh
    simp [Repository.CommitExists, GoMap.contains, GoMap.get?_set_self hset]
  · have hh' : ¬ c.Hash = hash := fun h₂ => hh h₂.symm
    simp [Repository.CommitExists, GoMap.contains, GoMap.get?_set_ne hset hh, hh']

/-- The loop of `AddBranch` changes the commit index only, adding the hashes of the commits
it visits. -/
theorem Repository.addCommitHashLoop_eq_some (commits : List Commit) :
    ∀ {repo repo' : Repository}, repo.addCommitHashLoop commits = some repo' →
      repo' = { repo with CommitHashes := repo'.CommitHashes } ∧
      ∀ hash, repo'.CommitExists hash = true ↔
        (repo.CommitExists hash = true ∨ ∃ c ∈ commits, c.Hash = hash) := by
  induction commits with
  | nil =>
    intro repo repo' h
    simp only [Repository.addCommitHashLoop, Option.some.injEq] at h
    subst h
    simp
  | cons c rest ih =>
    intro repo repo' h
    unfold Repository.addCommitHashLoop at h
    cases hc : repo.AddCommitHash c with
    | none => simp [hc] at h
    | some r =>
      obtain ⟨v, repo₁⟩ := r
      simp only [hc] at h
      obtain ⟨hframe, hindex⟩ := ih h
      obtain ⟨hashes, -, hrepo₁⟩ := Repository.addCommitHash_eq_some hc
      refine ⟨?_, ?_⟩
      · rw [hframe, hrepo₁]
      · intro hash
        rw [hindex hash, Repository.commitExists_addCommitHash hc hash]
        simp only [List.mem_cons, exists_eq_or_imp]
        tauto

theorem Repository.addCommitHashLoop_isSome (commits : List Commit) :
    ∀ {repo : Repository}, repo.CommitHashes ≠ GoMap.nilMap →
      ∃ repo', repo.addCommitHashLoop commits = some repo' := by
  induction commits with
  | nil => exact fun {repo} _ => ⟨repo, rfl⟩
  | cons c rest ih =>
    intro repo halloc
    obtain ⟨hashes, hset⟩ := GoMap.set_eq_some_of_ne_nilMap halloc c.Hash true
    have hne : ({ repo with CommitHashes := hashes } : Repository).CommitHashes
        ≠ GoMap.nilMap := by
      cases hm : repo.CommitHashes with
      | nilMap => exact absurd hm halloc
      | alloc es =>
        rw [hm] at hset
        simp only [GoMap.set, Option.some.injEq] at hset
        subst hset
        simp
    obtain ⟨repo', hrest⟩ := ih hne
    exact ⟨repo', by simp [Repository.addCommitHashLoop, Repository.AddCommitHash, hset, hrest]⟩

/-- What a true verdict of `Repository.AddBranch` leaves behind. -/
theorem Repository.addBranch_eq_some_true {repo repo' : Repository} {br : Branch} {f : Bool}
    {err : Option String} (h : repo.AddBranch br f = some ((true, err), repo')) :
    err = none ∧ repo'.Branches.get? br.Name = some br ∧
      (∀ hash, repo'.CommitExists hash = true ↔
        (repo.CommitExists hash = true ∨ ∃ k c, br.Commits.get? k = some c ∧ c.Hash = hash)) ∧
      (∀ other, other ≠ br.Name → repo'.Branches.get? other = repo.Branches.get? other) ∧
      repo'.Access = repo.Access ∧ repo'.AccessLogs = repo.AccessLogs ∧
      repo'.Name = repo.Name ∧ repo'.Author = repo.Author ∧
      repo'.DirectoryCID = repo.DirectoryCID := by
  unfold Repository.AddBranch at h
  split at h
  · cases hs : repo.Branches.set br.Name br with
    | none => simp [hs] at h
    | some branches =>
      simp only [hs] at h
      cases hl : ({ repo with Branches := branches } : Repository).addCommitHashLoop
          br.Commits.values with
      | none => simp [hl] at h
      | some repo₁ =>
        simp only [hl, Option.some.injEq, Prod.mk.injEq, true_and] at h
        obtain ⟨herr, hrepo⟩ := h
        subst hrepo
        obtain ⟨hframe, hindex⟩ := Repository.addCommitHashLoop_eq_some _ hl
        refine ⟨herr.symm, ?_, ?_, ?_, ?_, ?_, ?_, ?_, ?_⟩
        · rw [hframe]; exact GoMap.get?_set_self hs
        · intro hash
          rw [hindex hash]
          constructor
          · rintro (h₁ | ⟨c, hc, rfl⟩)
            · exact Or.inl h₁
            · obtain ⟨k, hk⟩ := (GoMap.mem_values_iff _ _).1 hc
              exact Or.inr ⟨k, c, hk, rfl⟩
          · rintro (h₁ | ⟨k, c, hk, rfl⟩)
            · exact Or.inl h₁
            · exact Or.inr ⟨c, (GoMap.mem_values_iff _ _).2 ⟨k, hk⟩, rfl⟩
        · intro other hother
          rw [hframe]; exact GoMap.get?_set_ne hs hother
        all_goals rw [hframe]
  · simp at h

/-- Claim C15, as stated.  In `nilBranchesRepo` the branch map is nil, so `dev` names no
branch, and `AddBranch` fails at run time in the assignment to the branch map instead of
returning true; in `nilIndexRepo` the same happens, with `setIfExists` set, at the first
commit hash assigned into the nil commit index. -/
theorem repo_addBranch_nil_map_fails :
    nilBranchesRepo.BranchExists "dev" = false ∧
      nilBranchesRepo.AddBranch { Name := "dev", Commits := GoMap.make } false = none ∧
      nilIndexRepo.AddBranch sampleBranch true = none := by
  decide

/-- Claim C15, amended.  For a repository whose branch map and commit index are allocated,
`Repository.AddBranch br setIfExists` returns true exactly when `br.Name` names no branch or
`setIfExists` is set.  When it returns true the error is nil, the repository maps `br.Name`
to `br`, a hash is in the commit index exactly when it was there before or is the `Hash` of
a commit carried by `br`, and every other branch, the access map, the access logs and the
name, author and directoryCID are unchanged; otherwise it returns false with a nil error
and the repository is unchanged. -/
theorem repo_addBranch_spec (repo : Repository) (br : Branch) (setIfExists : Bool)
    (hbranches : repo.Branches ≠ GoMap.nilMap)
    (hindex : repo.CommitHashes ≠ GoMap.nilMap) :
    ((∃ err repo', repo.AddBranch br setIfExists = some ((true, err), repo')) ↔
      (repo.BranchExists br.Name = false ∨ setIfExists = true)) ∧
    (∀ err repo', repo.AddBranch br setIfExists = some ((true, err), repo') →
      err = none ∧ repo'.Branches.get? br.Name = some br ∧
      (∀ hash, repo'.CommitExists hash = true ↔
        (repo.CommitExists hash = true ∨
          ∃ k c, br.Commits.get? k = some c ∧ c.Hash = hash)) ∧
      (∀ other, other ≠ br.Name → repo'.Branches.get? other = repo.Branches.get? other) ∧
      repo'.Access = repo.Access ∧ repo'.AccessLogs = repo.AccessLogs ∧
      repo'.Name = repo.Name ∧ repo'.Author = repo.Author ∧
      repo'.DirectoryCID = repo.DirectoryCID) ∧
    (¬ (repo.BranchExists br.Name = false ∨ setIfExists = true) →
      repo.AddBranch br setIfExists = some ((false, none), repo)) := by
  by_cases hgo : ((repo.ValidBranch br).1 || setIfExists) = true
  · have hgo' : repo.BranchExists br.Name = false ∨ setIfExists = true := by
      simpa [Repository.ValidBranch] using hgo
    obtain ⟨branches, hset⟩ := GoMap.set_eq_some_of_ne_nilMap hbranches br.Name br
    obtain ⟨repo', hloop⟩ :=
      Repository.addCommitHashLoop_isSome br.Commits.values
        (show ({ repo with Branches := branches } : Repository).CommitHashes ≠ GoMap.nilMap
          from hindex)
    have hres : repo.AddBranch br setIfExists = some ((true, none), repo') := by
      simp only [Repository.AddBranch, hgo, if_true, hset, hloop]
    exact ⟨⟨fun _ => hgo', fun _ => ⟨_, _, hres⟩⟩,
      fun err repo' h => Repository.addBranch_eq_some_true h, fun h => absurd hgo' h⟩
  · have hgo' : ¬ (repo.BranchExists br.Name = false ∨ setIfExists = true) := by
      simpa [Repository.ValidBranch] using hgo
    have hres : repo.AddBranch br setIfExists = some ((false, none), repo) := by
      simp only [Repository.AddBranch, hgo]
      simp
    refine ⟨⟨?_, fun h => absurd h hgo'⟩,
      fun err repo' h => Repository.addBranch_eq_some_true h, fun _ => hres⟩
    rintro ⟨err, repo', h⟩
    rw [hres] at h
    simp at h

/-- Witness for C15 amended: `sampleRepo` has branch `main` and index `c1`.  Adding a new
branch `dev` that carries the commit `c9` succeeds; adding another branch named `main`
without `setIfExists` is refused. -/
theorem repo_addBranch_spec_witness :
    sampleRepo.Branches ≠ GoMap.nilMap ∧ sampleRepo.CommitHashes ≠ GoMap.nilMap ∧
    (∃ err repo',
      sampleRepo.AddBranch
        { Name := "dev", Commits := GoMap.alloc [("c9", sampleCommit "c9" [] 1)] } false
        = some ((true, err), repo')) ∧
    sampleRepo.AddBranch { Name := "main", Commits := GoMap.make } false
      = some ((false, none), sampleRepo) :=
  ⟨by decide, by decide,
    (repo_addBranch_spec sampleRepo
      { Name := "dev", Commits := GoMap.alloc [("c9", sampleCommit "c9" [] 1)] } false
      (by decide) (by decide)).1.2 (Or.inl (by decide)),
    (repo_addBranch_spec sampleRepo { Name := "main", Commits := GoMap.make } false
      (by decide) (by decide)).2.2 (by decide)⟩

/-! ## Renaming a branch -/

/-- What a true verdict of `Repository.UpdateBranchName` leaves behind: the branch map is the
old one with the key `stored.Name` deleted and `n` bound to the stored branch renamed. -/
theorem Repository.updateBranchName_eq_some_true {repo repo' : Repository} {br : Branch}
    {n : String} {err : Option String}
    (h : repo.UpdateBranchName br n = some ((true, err), repo')) :
    err = none ∧ br.Name ≠ "main" ∧ n ≠ "main" ∧ repo.Branches.get? n = none ∧
      ∃ stored branches, repo.Branches.get? br.Name = some stored ∧
        (repo.Branches.delete stored.Name).set n { stored with Name := n } = some branches ∧
        repo' = { repo with Branches := branches } := by
  unfold Repository.UpdateBranchName at h
  simp only at h
  split at h
  · next hguard =>
    simp only [Bool.and_eq_true, bne_iff_ne, ne_eq] at hguard
    obtain ⟨⟨hex, hold⟩, hnew⟩ := hguard
    obtain ⟨stored, hstored⟩ := (GoMap.contains_eq_true_iff _ _).1 hex
    have hget : repo.Branches.getD br.Name = stored := by simp [GoMap.getD, hstored]
    rw [hget] at h
    split at h
    · next hfree =>
      have hfree' : repo.Branches.get? n = none := by
        apply (GoMap.contains_eq_false_iff _ _).1
        simpa [Repository.BranchExists] using hfree
      cases hs : (repo.Branches.delete stored.Name).set n { stored with Name := n } with
      | none => simp [hs] at h
      | some branches =>
        simp only [hs, Option.some.injEq, Prod.mk.injEq, true_and] at h
        exact ⟨h.1.symm, hold, hnew, hfree', stored, branches, hstored, hs, h.2.symm⟩
    · simp at h
  · simp at h

/-- Claim C16, as stated.  In `mismatchedRepo` the key `x` holds a branch whose `Name` field
is `y`.  Renaming `x` to `z` returns true, but the entry deleted is the one under `y`: `x`
still names a branch afterwards and the other branch `y`, with its commit `c1`, is gone. -/
theorem updateBranchName_mismatched_name_deletes_other :
    mismatchedRepo.BranchExists "y" = true ∧
    mismatchedRepo.UpdateBranchName { Name := "x", Commits := GoMap.nilMap } "z"
      = some ((true, none),
          { mismatchedRepo with
            Branches := GoMap.alloc [("z", { Name := "z", Commits := GoMap.make }),
                                     ("x", { Name := "y", Commits := GoMap.make })] }) ∧
    ({ mismatchedRepo with
        Branches := GoMap.alloc [("z", { Name := "z", Commits := GoMap.make }),
                                 ("x", { Name := "y", Commits := GoMap.make })] }
      : Repository).BranchExists "x" = true ∧
    ({ mismatchedRepo with
        Branches := GoMap.alloc [("z", { Name := "z", Commits := GoMap.make }),
                                 ("x", { Name := "y", Commits := GoMap.make })] }
      : Repository).BranchExists "y" = false := by
  decide

/-- Claim C16, amended.  Whenever `Repository.UpdateBranchName br n` returns true and the
branch that the repository stored under `br.Name` carries `br.Name` in its `Name` field,
afterwards `br.Name` no longer names a branch, `n` names a branch whose `Name` field is `n`
and whose commit map is the one stored under `br.Name` before the call, and every other
branch, the commit index, the access map, the access logs and the name, author and
directoryCID are unchanged. -/
theorem updateBranchName_preserves_commits (repo repo' : Repository) (br stored : Branch)
    (n : String) (err : Option String)
    (hres : repo.UpdateBranchName br n = some ((true, err), repo'))
    (hstored : repo.Branches.get? br.Name = some stored)
    (hname : stored.Name = br.Name) :
    repo'.BranchExists br.Name = false ∧
    repo'.Branches.get? n = some { Name := n, Commits := stored.Commits } ∧
    (∀ other, other ≠ br.Name → other ≠ n →
      repo'.Branches.get? other = repo.Branches.get? other) ∧
    repo'.CommitHashes = repo.CommitHashes ∧ repo'.Access = repo.Access ∧
    repo'.AccessLogs = repo.AccessLogs ∧ repo'.Name = repo.Name ∧
    repo'.Author = repo.Author ∧ repo'.DirectoryCID = repo.DirectoryCID := by
  obtain ⟨-, -, -, hfree, stored', branches, hstored', hset, hrepo⟩ :=
    Repository.updateBranchName_eq_some_true hres
  have hsame : stored' = stored := by
    rw [hstored] at hstored'
    exact (Option.some.inj hstored').symm
  subst hsame hrepo
  rw [hname] at hset
  have hne : br.Name ≠ n := by
    intro heq
    rw [heq, hfree] at hstored
    simp at hstored
  refine ⟨?_, GoMap.get?_set_self hset, ?_, rfl, rfl, rfl, rfl, rfl, rfl⟩
  · simp [Repository.BranchExists, GoMap.contains, GoMap.get?_set_ne hset hne,
      GoMap.get?_delete_self]
  · intro other hold hnew
    simp only [GoMap.get?_set_ne hset hnew]
    exact GoMap.get?_delete_ne _ hold

/-- Witness for C16 amended: in `twoBranchRepo` the branch `dev` is renamed to `feature`; the
branch `main` stays. -/
theorem updateBranchName_preserves_commits_witness :
    twoBranchRepo.UpdateBranchName { Name := "dev", Commits := GoMap.nilMap } "feature"
      = some ((true, none),
          { twoBranchRepo with
            Branches := GoMap.alloc [("feature", { Name := "feature", Commits := GoMap.make }),
                                     ("main", sampleBranch)] }) ∧
    twoBranchRepo.Branches.get? "dev" = some { Name := "dev", Commits := GoMap.make } ∧
    ({ twoBranchRepo with
        Branches := GoMap.alloc [("feature", { Name := "feature", Commits := GoMap.make }),
                                 ("main", sampleBranch)] }
      : Repository).BranchExists "dev" = false :=
  ⟨by decide, by decide,
    (updateBranchName_preserves_commits twoBranchRepo _
      { Name := "dev", Commits := GoMap.nilMap } { Name := "dev", Commits := GoMap.make }
      "feature" none (by decide) (by decide) rfl).1⟩

/-! ## The commit index only grows -/

theorem Repository.commitExists_addCommit {repo repo' : Repository} {c : Commit} {b : String}
    {f : Bool} {result : Bool × Option String}
    (h : repo.AddCommit c b f = some (result, repo')) {hash : String}
    (hex : repo.CommitExists hash = true) : repo'.CommitExists hash = true := by
  unfold Repository.AddCommit at h
  split at h
  · cases hb : (repo.Branches.getD b).AddCommit c f with
    | none => simp [hb] at h
    | some r =>
      obtain ⟨⟨done, e⟩, br⟩ := r
      simp only [hb] at h
      cases done with
      | false =>
        simp only [Bool.false_eq_true, if_false, Option.some.injEq, Prod.mk.injEq] at h
        rw [← h.2]
        exact hex
      | true =>
        simp only [if_true] at h
        cases hs : repo.Branches.set b br with
        | none => simp [hs] at h
        | some branches =>
          simp only [hs] at h
          cases hh : ({ repo with Branches := branches } : Repository).AddCommitHash c with
          | none => simp [hh] at h
          | some r₂ =>
            obtain ⟨v₂, repo₂⟩ := r₂
            simp only [hh, Option.some.injEq, Prod.mk.injEq] at h
            rw [← h.2]
            exact (Repository.commitExists_addCommitHash hh hash).2 (Or.inl hex)
  · simp only [Option.some.injEq, Prod.mk.injEq] at h
    rw [← h.2]
    exact hex

theorem Repository.commitExists_addCommits (commits : List Commit) (b : String) (f : Bool)
    (hash : String) :
    ∀ {repo repo' : Repository} {result : Bool × Option String},
      repo.AddCommits commits b f = some (result, repo') →
      repo.CommitExists hash = true → repo'.CommitExists hash = true := by
  induction commits with
  | nil =>
    intro repo repo' result h hex
    simp only [Repository.AddCommits, Option.some.injEq, Prod.mk.injEq] at h
    rw [← h.2]
    exact hex
  | cons c rest ih =>
    intro repo repo' result h hex
    rcases Repository.addCommit_trichotomy repo c b f with ⟨repo₁, h₁⟩ | h₁ | h₁
    · rw [Repository.addCommits_cons_of_accepted h₁] at h
      exact ih h (Repository.commitExists_addCommit h₁ hex)
    · rw [Repository.addCommits_cons_of_rejected h₁] at h
      simp only [Option.some.injEq, Prod.mk.injEq] at h
      rw [← h.2]
      exact hex
    · rw [Repository.addCommits_cons_of_failed h₁] at h
      simp at h

theorem Repository.commitExists_addBranch {repo repo' : Repository} {br : Branch} {f : Bool}
    {result : Bool × Option String}
    (h : repo.AddBranch br f = some (result, repo')) {hash : String}
    (hex : repo.CommitExists hash = true) : repo'.CommitExists hash = true := by
  obtain ⟨verdict, err⟩ := result
  cases verdict with
  | true => exact ((Repository.addBranch_eq_some_true h).2.2.1 hash).2 (Or.inl hex)
  | false =>
    unfold Repository.AddBranch at h
    split at h
    · cases hs : repo.Branches.set br.Name br with
      | none => simp [hs] at h
      | some branches =>
        simp only [hs] at h
        cases hl : ({ repo with Branches := branches } : Repository).addCommitHashLoop
            br.Commits.values with
        | none => simp [hl] at h
        | some repo₁ => simp [hl] at h
    · simp only [Option.some.injEq, Prod.mk.injEq] at h
      rw [← h.2]
      exact hex

theorem Repository.commitHashes_updateBranchName {repo repo' : Repository} {br : Branch}
    {n : String} {result : Bool × Option String}
    (h : repo.UpdateBranchName br n = some (result, repo')) :
    repo'.CommitHashes = repo.CommitHashes := by
  obtain ⟨verdict, err⟩ := result
  cases verdict with
  | true =>
    obtain ⟨-, -, -, -, stored, branches, -, -, hrepo⟩ :=
      Repository.updateBranchName_eq_some_true h
    rw [hrepo]
  | false =>
    unfold Repository.UpdateBranchName at h
    simp only at h
    split at h
    · split at h
      · cases hs : (repo.Branches.delete (repo.Branches.getD br.Name).Name).set n
            { repo.Branches.getD br.Name with Name := n } with
        | none => simp [hs] at h
        | some branches => simp [hs] at h
      · simp only [Option.some.injEq, Prod.mk.injEq] at h
        rw [← h.2]
    · simp only [Option.some.injEq, Prod.mk.injEq] at h
      rw [← h.2]

theorem Repository.commitHashes_deleteBranch (repo : Repository) (n : String) :
    (repo.DeleteBranch n).2.CommitHashes = repo.CommitHashes := by
  unfold Repository.DeleteBranch
  split <;> rfl

theorem Repository.commitHashes_updateAccess {repo repo' : Repository} {authorized : String}
    {level : UserAccess} {authorizer : String} {t : Time} {verdict : Bool}
    (h : repo.UpdateAccess authorized level authorizer t = some (verdict, repo')) :
    repo'.CommitHashes = repo.CommitHashes := by
  rcases Repository.updateAccess_cases repo authorized level authorizer t with
    ⟨-, access, -, hres⟩ | ⟨-, hres⟩
  · rw [hres] at h
    simp only [Option.some.injEq, Prod.mk.injEq] at h
    rw [← h.2]
  · rw [hres] at h
    simp only [Option.some.injEq, Prod.mk.injEq] at h
    rw [← h.2]

/-- Claim C17.  A hash that `Repository.CommitExists` finds before a call of `AddCommit`,
`AddCommits`, `AddBranch`, `UpdateBranchName`, `DeleteBranch` or `UpdateAccess`, with any
arguments, is still found in the repository that the call leaves behind. -/
theorem commit_index_never_pruned (repo : Repository) (hash : String)
    (hex : repo.CommitExists hash = true) :
    (∀ c b f result repo', repo.AddCommit c b f = some (result, repo') →
      repo'.CommitExists hash = true) ∧
    (∀ commits b f result repo', repo.AddCommits commits b f = some (result, repo') →
      repo'.CommitExists hash = true) ∧
    (∀ br setIfExists result repo', repo.AddBranch br setIfExists = some (result, repo') →
      repo'.CommitExists hash = true) ∧
    (∀ br n result repo', repo.UpdateBranchName br n = some (result, repo') →
      repo'.CommitExists hash = true) ∧
    (∀ n, (repo.DeleteBranch n).2.CommitExists hash = true) ∧
    (∀ authorized level authorizer t verdict repo',
      repo.UpdateAccess authorized level authorizer t = some (verdict, repo') →
      repo'.CommitExists hash = true) := by
  refine ⟨?_, ?_, ?_, ?_, ?_, ?_⟩
  · intro c b f result repo' h
    exact Repository.commitExists_addCommit h hex
  · intro commits b f result repo' h
    exact Repository.commitExists_addCommits commits b f hash h hex
  · intro br setIfExists result repo' h
    exact Repository.commitExists_addBranch h hex
  · intro br n result repo' h
    simpa [Repository.CommitExists, Repository.commitHashes_updateBranchName h] using hex
  · intro n
    simpa [Repository.CommitExists, Repository.commitHashes_deleteBranch repo n] using hex
  · intro authorized level authorizer t verdict repo' h
    simpa [Repository.CommitExists, Repository.commitHashes_updateAccess h] using hex

/-- Witness for C17: in `twoBranchRepo` the hash `c1` is in the index and belongs to `main`
only.  It is still in the index after `main` is overwritten by an empty branch, and after
`dev` is deleted. -/
theorem commit_index_never_pruned_witness :
    twoBranchRepo.CommitExists "c1" = true ∧
    twoBranchRepo.AddBranch { Name := "main", Commits := GoMap.make } true
      = some ((true, none),
          { twoBranchRepo with
            Branches := GoMap.alloc [("main", { Name := "main", Commits := GoMap.make }),
                                     ("dev", { Name := "dev", Commits := GoMap.make })] }) ∧
    ({ twoBranchRepo with
        Branches := GoMap.alloc [("main", { Name := "main", Commits := GoMap.make }),
                                 ("dev", { Name := "dev", Commits := GoMap.make })] }
      : Repository).CommitExists "c1" = true ∧
    (twoBranchRepo.DeleteBranch "dev").1.1 = true ∧
    (twoBranchRepo.DeleteBranch "dev").2.CommitExists "c1" = true :=
  ⟨by decide, by decide,
    (commit_index_never_pruned twoBranchRepo "c1" (by decide)).2.2.1
      { Name := "main", Commits := GoMap.make } true (true, none) _ (by decide),
    by decide,
    (commit_index_never_pruned twoBranchRepo "c1" (by decide)).2.2.2.2.1 "dev"⟩

/-! ## Access predicates -/

/-- Claim C18.  `GetUserAccess u` is the level mapped to `u`, or `NoAccess` when `u` has no
entry; `CanRead u` is true exactly when that level is `ReadAccess`, `ReadWriteAccess` or
`OwnerAccess`; `CanEdit u` exactly when it is `ReadWriteAccess` or `OwnerAccess`; `IsOwner u`
exactly when it is `OwnerAccess`.  The four methods only read `repo.Access`; in the embedding
they are functions of the repository with no repository among their results. -/
theorem access_predicates_spec (repo : Repository) (u : String) :
    (∀ level, repo.Access.get? u = some level → repo.GetUserAccess u = level) ∧
    (repo.Access.get? u = none → repo.GetUserAccess u = NoAccess) ∧
    (repo.CanRead u = true ↔
      (repo.GetUserAccess u = ReadAccess ∨ repo.GetUserAccess u = ReadWriteAccess ∨
        repo.GetUserAccess u = OwnerAccess)) ∧
    (repo.CanEdit u = true ↔
      (repo.GetUserAccess u = ReadWriteAccess ∨ repo.GetUserAccess u = OwnerAccess)) ∧
    (repo.IsOwner u = true ↔ repo.GetUserAccess u = OwnerAccess) := by
  cases hget : repo.Access.get? u with
  | none =>
    simp [Repository.GetUserAccess, Repository.CanRead, Repository.CanEdit, Repository.IsOwner,
      hget, NoAccess, ReadAccess, ReadWriteAccess, OwnerAccess]
  | some level =>
    simp [Repository.GetUserAccess, Repository.CanRead, Repository.CanEdit, Repository.IsOwner,
      hget, or_assoc]

/-- Witness for C18: in `sampleRepo` the owner `alice` can read and edit, and `bob`, who has
no entry, holds `NoAccess` and can do neither. -/
theorem access_predicates_spec_witness :
    sampleRepo.Access.get? "bob" = none ∧ sampleRepo.GetUserAccess "bob" = NoAccess ∧
    sampleRepo.CanRead "bob" = false ∧
    sampleRepo.GetUserAccess "alice" = OwnerAccess ∧ sampleRepo.IsOwner "alice" = true :=
  ⟨by decide, (access_predicates_spec sampleRepo "bob").2.1 (by decide), by decide, by decide,
    (access_predicates_spec sampleRepo "alice").2.2.2.2.2 (by decide)⟩

/-! ## The fresh repository -/

/-- Claim C19.  `CreateNewRepo name author directoryCID nil nil t` returns, with a nil error,
the repository whose access log is the single entry `{author, author, t, OwnerAccess}`,
whose access map holds `author -> OwnerAccess` and nothing else, whose branch map holds the
branch `main`, with no commits, and nothing else, and whose commit index is empty. -/
theorem createNewRepo_fresh (name author directoryCID : String) (t : Time) :
    CreateNewRepo name author directoryCID GoMap.nilMap none t
      = ({ Name := name, Author := author, DirectoryCID := directoryCID,
           CommitHashes := GoMap.alloc [],
           Access := GoMap.alloc [(author, OwnerAccess)],
           Branches := GoMap.alloc [("main", { Name := "main", Commits := GoMap.alloc [] })],
           AccessLogs := [{ Authorizer := author, Authorized := author, Timestamp := t,
                            UserAccess := OwnerAccess }] }, none) ∧
    (∀ u, (CreateNewRepo name author directoryCID GoMap.nilMap none t).1.Access.get? u
      = if u = author then some OwnerAccess else none) ∧
    (∀ b, (CreateNewRepo name author directoryCID GoMap.nilMap none t).1.Branches.get? b
      = if b = "main" then some { Name := "main", Commits := GoMap.alloc [] } else none) ∧
    (CreateNewRepo name author directoryCID GoMap.nilMap none t).1.Branches.len = 1 ∧
    (∀ branch,
      (CreateNewRepo name author directoryCID GoMap.nilMap none t).1.Branches.get? "main"
        = some branch → branch.Name = "main" ∧ branch.Commits.len = 0) ∧
    (CreateNewRepo name author directoryCID GoMap.nilMap none t).1.CommitHashes.len = 0 ∧
    (∀ hash,
      (CreateNewRepo name author directoryCID GoMap.nilMap none t).1.CommitExists hash
        = false) := by
  have hrepo : CreateNewRepo name author directoryCID GoMap.nilMap none t
      = ({ Name := name, Author := author, DirectoryCID := directoryCID,
           CommitHashes := GoMap.alloc [],
           Access := GoMap.alloc [(author, OwnerAccess)],
           Branches := GoMap.alloc [("main", { Name := "main", Commits := GoMap.alloc [] })],
           AccessLogs := [{ Authorizer := author, Authorized := author, Timestamp := t,
                            UserAccess := OwnerAccess }] }, none) := by
    simp [CreateNewRepo, replayAccessLogs, putKey, eraseKey, GoMap.make]
  rw [hrepo]
  refine ⟨rfl, ?_, ?_, ?_, ?_, ?_, ?_⟩
  · intro u
    by_cases hu : u = author
    · simp [GoMap.get?, GoMap.entries, lookupKey, hu]
    · have hu' : ¬ author = u := fun h => hu h.symm
      simp [GoMap.get?, GoMap.entries, lookupKey, hu, hu']
  · intro b
    by_cases hb : b = "main"
    · simp [GoMap.get?, GoMap.entries, lookupKey, hb]
    · have hb' : ¬ "main" = b := fun h => hb h.symm
      simp [GoMap.get?, GoMap.entries, lookupKey, hb, hb']
  · simp [GoMap.len, GoMap.keys, GoMap.entries]
  · intro branch hbranch
    simp only [GoMap.get?, GoMap.entries, lookupKey, if_true, Option.some.injEq] at hbranch
    subst hbranch
    simp [GoMap.len, GoMap.keys, GoMap.entries]
  · simp [GoMap.len, GoMap.keys, GoMap.entries]
  · intro hash
    simp [Repository.CommitExists, GoMap.contains, GoMap.get?, GoMap.entries, lookupKey]

/-! ## Deleting `main` -/

/-- Claim C20, as stated.  Deleting `main` from `sampleRepo` returns false together with the
non-nil error "Branch main does not exist for repo proj!". -/
theorem deleteBranch_main_sample_error :
    sampleRepo.DeleteBranch "main"
      = ((false, some "Branch main does not exist for repo proj!"), sampleRepo) ∧
    (sampleRepo.DeleteBranch "main").1.2 ≠ none := by
  decide

/-- Claim C20, amended.  For every repository, `Repository.DeleteBranch "main"` returns false
together with the non-nil error "Branch main does not exist for repo name!", the error of
the rejecting path that a missing branch takes as well, and leaves the repository
unchanged. -/
theorem deleteBranch_main_rejected (repo : Repository) :
    repo.DeleteBranch "main"
      = ((false, some ("Branch " ++ "main" ++ " does not exist for repo " ++ repo.Name ++ "!")),
          repo) ∧
    (repo.DeleteBranch "main").1.1 = false ∧
    (repo.DeleteBranch "main").1.2 ≠ none ∧
    (repo.DeleteBranch "main").2 = repo := by
  have hres : repo.DeleteBranch "main"
      = ((false, some ("Branch " ++ "main" ++ " does not exist for repo " ++ repo.Name ++ "!")),
          repo) := by
    simp [Repository.DeleteBranch]
  rw [hres]
  exact ⟨rfl, rfl, by simp, rfl⟩

/-! ## Appending to a missing branch -/

/-- On a name that is no branch of the repository, `Repository.AddCommit` with
`passValidation = true` always fails at run time: the branch read from the branch map is the
zero value, whose commit map is nil. -/
theorem Repository.addCommit_missing_branch_forced (repo : Repository) (c : Commit)
    (b : String) (hmissing : repo.BranchExists b = false) :
    repo.AddCommit c b true = none := by
  have hget : repo.Branches.get? b = none := (GoMap.contains_eq_false_iff _ _).1 hmissing
  simp [Repository.AddCommit, GoMap.getD, hget, Branch.AddCommit, GoMap.set, default]

/-- Claim C21, at the failing input.  In the fresh repository no branch `dev` exists; the
branch that `AddCommit` reads under that name is the zero value with a nil commit map, and
with `passValidation = true` the call fails at run time in the assignment to that map
instead of returning a verdict.  Without the flag the same call returns false. -/
theorem repo_addCommit_missing_branch_passValidation_fails :
    freshRepo.BranchExists "dev" = false ∧
    freshRepo.Branches.getD "dev" = { Name := "", Commits := GoMap.nilMap } ∧
    ({ Name := "", Commits := GoMap.nilMap } : Branch).AddCommit (sampleCommit "c1" [] 5) true
      = none ∧
    freshRepo.AddCommit (sampleCommit "c1" [] 5) "dev" true = none ∧
    freshRepo.AddCommit (sampleCommit "c1" [] 5) "dev" false
      = some ((false, none), freshRepo) := by
  decide

/-! ## The errors of the branch-level validation -/

theorem previous_commit_message_ne (p hash name : String) :
    "Previous commit " ++ p ++ " not valid for branch " ++ name ++ "!"
      ≠ "Commit " ++ hash ++ " not valid for branch " ++ name ++ "!" := by
  intro h
  have hdata := congrArg String.data h
  simp only [String.data_append] at hdata
  have hhead := congrArg List.head? hdata
  simp at hhead

/-- Claim C25.  `Branch.ValidCommit c` returns false with the error "Commit c.Hash not valid
for branch name!" exactly when `c.Hash` is already in the branch, or the branch is not empty
and `c` has no parent hashes.  In every other case either the branch is empty and the result
is `(true, nil)`, or `c` has a first parent hash `p` and the result is: with `p` in the
branch, a nil error and the verdict of the time stamp comparison, so `(true, nil)` or
`(false, nil)`; with `p` not in the branch, false with the error "Previous commit p not
valid for branch name!". -/
theorem validCommit_generic_error_iff (branch : Branch) (c : Commit) :
    (branch.ValidCommit c
        = (false, some ("Commit " ++ c.Hash ++ " not valid for branch " ++ branch.Name ++ "!"))
      ↔ (branch.CommitExists c.Hash = true ∨
          (branch.Commits.len ≠ 0 ∧ c.ParentHashes = []))) ∧
    (¬ (branch.CommitExists c.Hash = true ∨
          (branch.Commits.len ≠ 0 ∧ c.ParentHashes = [])) →
      (branch.Commits.len = 0 ∧ branch.ValidCommit c = (true, none)) ∨
      ∃ p others, c.ParentHashes = p :: others ∧
        ((∃ stored, branch.Commits.get? p = some stored ∧
            branch.ValidCommit c
              = (decide (stored.Timestamp.UnixMilli < c.Timestamp.UnixMilli), none)) ∨
          (branch.CommitExists p = false ∧
            branch.ValidCommit c
              = (false, some ("Previous commit " ++ p ++ " not valid for branch "
                  ++ branch.Name ++ "!"))))) := by
  cases hex : branch.CommitExists c.Hash with
  | true => simp [Branch.ValidCommit, hex]
  | false =>
    by_cases hlen : branch.Commits.len = 0
    · simp [Branch.ValidCommit, hex, hlen]
    · cases hparents : c.ParentHashes with
      | nil => simp [Branch.ValidCommit, hex, hlen, hparents]
      | cons p others =>
        cases hp : branch.CommitExists p with
        | true =>
          obtain ⟨stored, hstored⟩ := (GoMap.contains_eq_true_iff _ _).1 hp
          simp [Branch.ValidCommit, hex, hlen, hparents, hp, GoMap.getD, hstored]
        | false =>
          have hmsg := previous_commit_message_ne p c.Hash branch.Name
          simp [Branch.ValidCommit, hex, hlen, hparents, hp, hmsg]

/-- Witness for C25: on `sampleBranch` the commit `c1` is a duplicate and the commit `c2`
without parents has none to check; both get the generic error. -/
theorem validCommit_generic_error_iff_witness :
    sampleBranch.ValidCommit (sampleCommit "c1" ["zz"] 9)
      = (false, some ("Commit " ++ (sampleCommit "c1" ["zz"] 9).Hash
          ++ " not valid for branch " ++ sampleBranch.Name ++ "!")) ∧
    sampleBranch.ValidCommit (sampleCommit "c2" [] 9)
      = (false, some ("Commit " ++ (sampleCommit "c2" [] 9).Hash
          ++ " not valid for branch " ++ sampleBranch.Name ++ "!")) :=
  ⟨(validCommit_generic_error_iff sampleBranch (sampleCommit "c1" ["zz"] 9)).1.2
      (Or.inl (by decide)),
    (validCommit_generic_error_iff sampleBranch (sampleCommit "c2" [] 9)).1.2
      (Or.inr ⟨by decide, rfl⟩)⟩

/-! ## An owner remains -/

theorem Repository.exists_owner_updateAccess {repo repo' : Repository} {authorized : String}
    {level : UserAccess} {authorizer : String} {t : Time} {verdict : Bool}
    (h : repo.UpdateAccess authorized level authorizer t = some (verdict, repo'))
    (howner : ∃ user, repo.IsOwner user = true) : ∃ user, repo'.IsOwner user = true := by
  rcases Repository.updateAccess_cases repo authorized level authorizer t with
    ⟨⟨hauth, hne, -⟩, access, hset, hres⟩ | ⟨-, hres⟩
  · rw [hres] at h
    simp only [Option.some.injEq, Prod.mk.injEq] at h
    refine ⟨authorizer, ?_⟩
    rw [← h.2, Repository.isOwner_iff]
    simpa [GoMap.get?_set_ne hset hne] using hauth
  · rw [hres] at h
    simp only [Option.some.injEq, Prod.mk.injEq] at h
    rw [← h.2]
    exact howner

/-- Claim C28.  When `Repository.UpdateAccess` returns true, the authorizer is still mapped
to `OwnerAccess` afterwards.  Hence, in a repository in which some user is owner, any
sequence of `UpdateAccess` calls, whatever their verdicts, runs without failure and leaves a
repository in which some user is owner. -/
theorem owner_always_remains (repo : Repository) :
    (∀ authorized level authorizer t repo',
      repo.UpdateAccess authorized level authorizer t = some (true, repo') →
      repo'.IsOwner authorizer = true ∧ repo'.Access.get? authorizer = some OwnerAccess) ∧
    ((∃ user, repo.IsOwner user = true) →
      ∀ calls : List UpdateAccessCall,
        ∃ repo', repo.updateAccessAll calls = some repo' ∧
          ∃ user, repo'.IsOwner user = true) := by
  constructor
  · intro authorized level authorizer t repo' h
    rcases Repository.updateAccess_cases repo authorized level authorizer t with
      ⟨⟨hauth, hne, -⟩, access, hset, hres⟩ | ⟨-, hres⟩
    · rw [hres] at h
      simp only [Option.some.injEq, Prod.mk.injEq, true_and] at h
      have hget : repo'.Access.get? authorizer = some OwnerAccess := by
        rw [← h]
        simpa [GoMap.get?_set_ne hset hne] using hauth
      exact ⟨(Repository.isOwner_iff repo' authorizer).2 hget, hget⟩
    · rw [hres] at h
      simp at h
  · intro howner calls
    induction calls generalizing repo with
    | nil => exact ⟨repo, rfl, howner⟩
    | cons call calls ih =>
      rcases Repository.updateAccess_cases repo call.authorized call.userAccess call.authorizer
        call.timestamp with ⟨-, access, -, hres⟩ | ⟨-, hres⟩
      · obtain ⟨repo', hrun, hown⟩ := ih _ (Repository.exists_owner_updateAccess hres howner)
        exact ⟨repo', by simp [Repository.updateAccessAll, hres, hrun], hown⟩
      · obtain ⟨repo', hrun, hown⟩ := ih _ howner
        exact ⟨repo', by simp [Repository.updateAccessAll, hres, hrun], hown⟩

/-- Witness for C28: in `sampleRepo` the owner `alice` makes `bob` an owner, and `bob` then
takes all access from `alice`; `bob` is owner at the end. -/
theorem owner_always_remains_witness :
    sampleRepo.IsOwner "alice" = true ∧
    ∃ repo',
      sampleRepo.updateAccessAll
        [⟨"bob", OwnerAccess, "alice", ⟨1, 0⟩⟩, ⟨"alice", NoAccess, "bob", ⟨2, 0⟩⟩] = some repo' ∧
      ∃ user, repo'.IsOwner user = true :=
  ⟨by decide,
    (owner_always_remains sampleRepo).2 ⟨"alice", by decide⟩
      [⟨"bob", OwnerAccess, "alice", ⟨1, 0⟩⟩, ⟨"alice", NoAccess, "bob", ⟨2, 0⟩⟩]⟩

/-! ## The lineage of a branch -/

theorem Branch.validCommit_of_len_eq_zero {branch : Branch} (c : Commit)
    (hempty : branch.Commits.len = 0) : (branch.ValidCommit c).1 = true := by
  have hc : branch.CommitExists c.Hash = false := by
    simp [Branch.CommitExists, GoMap.contains, GoMap.get?_eq_none_of_len_eq_zero hempty]
  simp [Branch.ValidCommit, hc, hempty]

theorem Branch.first_parent_of_validCommit {branch : Branch} {c : Commit}
    (hvalid : (branch.ValidCommit c).1 = true) (hnonempty : branch.Commits.len ≠ 0) :
    ∃ p others parent, c.ParentHashes = p :: others ∧
      branch.Commits.get? p = some parent ∧
      parent.Timestamp.UnixMilli < c.Timestamp.UnixMilli := by
  have hex := Branch.commitExists_eq_false_of_validCommit hvalid
  cases hparents : c.ParentHashes with
  | nil => simp [Branch.ValidCommit, hex, hnonempty, hparents] at hvalid
  | cons p others =>
    cases hp : branch.CommitExists p with
    | false => simp [Branch.ValidCommit, hex, hnonempty, hparents, hp] at hvalid
    | true =>
      obtain ⟨parent, hparent⟩ := (GoMap.contains_eq_true_iff _ _).1 hp
      refine ⟨p, others, parent, rfl, hparent, ?_⟩
      simpa [Branch.ValidCommit, hex, hnonempty, hparents, hp, GoMap.getD, hparent] using hvalid

/-- The two outcomes of `Branch.AddCommit` without `passValidation` that return. -/
theorem Branch.addCommit_validated_cases {branch branch' : Branch} {c : Commit}
    {result : Bool × Option String}
    (h : branch.AddCommit c false = some (result, branch')) :
    ((branch.ValidCommit c).1 = false ∧ result = (false, none) ∧ branch' = branch) ∨
    ((branch.ValidCommit c).1 = true ∧ result = (true, none) ∧ branch'.Name = branch.Name ∧
      branch.Commits.set c.Hash c = some branch'.Commits) := by
  cases hvalid : (branch.ValidCommit c).1 with
  | false =>
    left
    simp only [Branch.AddCommit, hvalid, Bool.or_self, Bool.false_eq_true, if_false,
      Option.some.injEq, Prod.mk.injEq] at h
    exact ⟨rfl, h.1.symm, h.2.symm⟩
  | true =>
    right
    obtain ⟨verdict, err⟩ := result
    have hverdict : verdict = true := by
      unfold Branch.AddCommit at h
      simp only [hvalid, Bool.true_or, if_true] at h
      cases hset : branch.Commits.set c.Hash c with
      | none => simp [hset] at h
      | some commits =>
        simp only [hset, Option.some.injEq, Prod.mk.injEq] at h
        exact h.1.1.symm
    subst hverdict
    obtain ⟨herr, hname, hset⟩ := Branch.addCommit_eq_some_true h
    subst herr
    exact ⟨rfl, rfl, hname, hset⟩

theorem Branch.lineage_addCommit {branch branch' : Branch} {root : String}
    {rootCommit c : Commit} {result : Bool × Option String}
    (hinv : branch.Lineage root) (hroot : branch.Commits.get? root = some rootCommit)
    (h : branch.AddCommit c false = some (result, branch')) :
    branch'.Lineage root ∧ branch'.Commits.get? root = some rootCommit := by
  rcases Branch.addCommit_validated_cases h with ⟨-, -, hsame⟩ | ⟨hvalid, -, -, hset⟩
  · rw [hsame]
    exact ⟨hinv, hroot⟩
  · have hnonempty : branch.Commits.len ≠ 0 :=
      GoMap.len_ne_zero_of_contains (show branch.Commits.contains root = true by
        simp [GoMap.contains, hroot])
    have hnew : branch.Commits.get? c.Hash = none :=
      (GoMap.contains_eq_false_iff _ _).1 (Branch.commitExists_eq_false_of_validCommit hvalid)
    have hold : ∀ {k : String} {d : Commit}, branch.Commits.get? k = some d → k ≠ c.Hash := by
      intro k d hk heq
      rw [heq, hnew] at hk
      simp at hk
    have hkeep : ∀ {k : String} {d : Commit}, branch.Commits.get? k = some d →
        branch'.Commits.get? k = some d := by
      intro k d hk
      rw [GoMap.get?_set_ne hset (hold hk)]
      exact hk
    obtain ⟨p, others, parent, hparents, hparent, hlt⟩ :=
      Branch.first_parent_of_validCommit hvalid hnonempty
    refine ⟨⟨?_, ?_⟩, hkeep hroot⟩
    · intro k d hk
      by_cases hkc : k = c.Hash
      · rw [hkc, GoMap.get?_set_self hset] at hk
        rw [hkc, ← Option.some.inj hk]
      · rw [GoMap.get?_set_ne hset hkc] at hk
        exact hinv.1 k d hk
    · intro k d hk hkroot
      by_cases hkc : k = c.Hash
      · rw [hkc, GoMap.get?_set_self hset] at hk
        rw [← Option.some.inj hk]
        exact ⟨p, others, parent, hparents, hkeep hparent, hlt⟩
      · rw [GoMap.get?_set_ne hset hkc] at hk
        obtain ⟨q, rest, qparent, hq₁, hq₂, hq₃⟩ := hinv.2 k d hk hkroot
        exact ⟨q, rest, qparent, hq₁, hkeep hq₂, hq₃⟩

theorem Branch.lineage_addAllValidated (commits : List Commit) :
    ∀ {branch branch' : Branch} {root : String} {rootCommit : Commit},
      branch.Lineage root → branch.Commits.get? root = some rootCommit →
      branch.addAllValidated commits = some branch' →
      branch'.Lineage root ∧ branch'.Commits.get? root = some rootCommit := by
  induction commits with
  | nil =>
    intro branch branch' root rootCommit hinv hroot h
    simp only [Branch.addAllValidated, Option.some.injEq] at h
    rw [← h]
    exact ⟨hinv, hroot⟩
  | cons c rest ih =>
    intro branch branch' root rootCommit hinv hroot h
    unfold Branch.addAllValidated at h
    cases hstep : branch.AddCommit c false with
    | none => simp [hstep] at h
    | some r =>
      obtain ⟨result, branch₁⟩ := r
      simp only [hstep] at h
      obtain ⟨hinv₁, hroot₁⟩ := Branch.lineage_addCommit hinv hroot hstep
      exact ih hinv₁ hroot₁ h

/-- The first validated append to an empty branch stores the commit, and nothing else. -/
theorem Branch.lineage_first {start branch₁ : Branch} {first : Commit}
    {result : Bool × Option String} (hempty : start.Commits.len = 0)
    (h : start.AddCommit first false = some (result, branch₁)) :
    branch₁.Lineage first.Hash ∧ branch₁.Commits.get? first.Hash = some first := by
  rcases Branch.addCommit_validated_cases h with ⟨hvalid, -, -⟩ | ⟨-, -, -, hset⟩
  · rw [Branch.validCommit_of_len_eq_zero first hempty] at hvalid
    simp at hvalid
  · have hother : ∀ k, k ≠ first.Hash → branch₁.Commits.get? k = none := by
      intro k hk
      rw [GoMap.get?_set_ne hset hk]
      exact GoMap.get?_eq_none_of_len_eq_zero hempty k
    refine ⟨⟨?_, ?_⟩, GoMap.get?_set_self hset⟩
    · intro k d hk
      by_cases hkf : k = first.Hash
      · rw [hkf, GoMap.get?_set_self hset] at hk
        rw [hkf, ← Option.some.inj hk]
      · rw [hother k hkf] at hk
        simp at hk
    · intro k d hk hkf
      rw [hother k hkf] at hk
      simp at hk

/-- Every branch obtained from an empty branch by validated appends of `first :: rest` has
the lineage property with `first` as its first commit. -/
theorem Branch.lineage_of_empty {start branch : Branch} {first : Commit} {rest : List Commit}
    (hempty : start.Commits.len = 0)
    (h : start.addAllValidated (first :: rest) = some branch) :
    branch.Lineage first.Hash ∧ branch.Commits.get? first.Hash = some first := by
  unfold Branch.addAllValidated at h
  cases hstep : start.AddCommit first false with
  | none => simp [hstep] at h
  | some r =>
    obtain ⟨result, branch₁⟩ := r
    simp only [hstep] at h
    obtain ⟨hinv₁, hroot₁⟩ := Branch.lineage_first hempty hstep
    exact Branch.lineage_addAllValidated rest hinv₁ hroot₁ h

theorem Branch.addAllValidated_isSome (commits : List Commit) :
    ∀ {branch : Branch}, branch.Commits ≠ GoMap.nilMap →
      ∃ branch', branch.addAllValidated commits = some branch' := by
  induction commits with
  | nil => exact fun {branch} _ => ⟨branch, rfl⟩
  | cons c rest ih =>
    intro branch halloc
    cases hvalid : (branch.ValidCommit c).1 with
    | false =>
      obtain ⟨branch', hrest⟩ := ih halloc
      exact ⟨branch', by simp [Branch.addAllValidated, Branch.AddCommit, hvalid, hrest]⟩
    | true =>
      cases hm : branch.Commits with
      | nilMap => exact absurd hm halloc
      | alloc es =>
        have hnext : ({ branch with Commits := GoMap.alloc (putKey c.Hash c es) } : Branch).Commits
            ≠ GoMap.nilMap := by simp
        obtain ⟨branch', hrest⟩ := ih hnext
        exact ⟨branch', by
          simp [Branch.addAllValidated, Branch.AddCommit, hvalid, hm, GoMap.set, hrest]⟩

/-- Claim C22.  Start from a branch with zero commits and make any sequence of
`Branch.AddCommit` calls with `passValidation = false`.  When the commit map of the start
branch is allocated the calls run without failure, and in every branch so obtained: each
commit is stored under its own hash, so no two stored commits share a hash; with no call
made the branch holds no commit; otherwise the commit of the first call is the first one
accepted and is stored, and every other stored commit has a first parent hash that is in the
branch with a strictly smaller millisecond time stamp than its own. -/
theorem branch_lineage_invariant (start : Branch) (commits : List Commit)
    (hempty : start.Commits.len = 0) :
    (start.Commits ≠ GoMap.nilMap → ∃ branch, start.addAllValidated commits = some branch) ∧
    ∀ branch, start.addAllValidated commits = some branch →
      (∀ k c, branch.Commits.get? k = some c → c.Hash = k) ∧
      (∀ k₁ k₂ c₁ c₂, branch.Commits.get? k₁ = some c₁ → branch.Commits.get? k₂ = some c₂ →
        k₁ ≠ k₂ → c₁.Hash ≠ c₂.Hash) ∧
      (commits = [] → ∀ k, branch.Commits.get? k = none) ∧
      (∀ first rest, commits = first :: rest →
        (start.AddCommit first false).map Prod.fst = some (true, none) ∧
        branch.Commits.get? first.Hash = some first ∧
        ∀ k c, branch.Commits.get? k = some c → k ≠ first.Hash →
          ∃ p others parent, c.ParentHashes = p :: others ∧
            branch.Commits.get? p = some parent ∧
            parent.Timestamp.UnixMilli < c.Timestamp.UnixMilli) := by
  refine ⟨fun halloc => Branch.addAllValidated_isSome commits halloc, ?_⟩
  intro branch h
  cases commits with
  | nil =>
    simp only [Branch.addAllValidated, Option.some.injEq] at h
    subst h
    have hnone : ∀ k, start.Commits.get? k = none :=
      fun k => GoMap.get?_eq_none_of_len_eq_zero hempty k
    refine ⟨?_, ?_, fun _ => hnone, ?_⟩
    · intro k c hk
      rw [hnone k] at hk
      simp at hk
    · intro k₁ k₂ c₁ c₂ hk₁
      rw [hnone k₁] at hk₁
      simp at hk₁
    · intro first rest hcons
      simp at hcons
  | cons first rest =>
    obtain ⟨⟨hkeys, hparents⟩, hroot⟩ := Branch.lineage_of_empty hempty h
    refine ⟨hkeys, ?_, fun hnil => by simp at hnil, ?_⟩
    · intro k₁ k₂ c₁ c₂ hk₁ hk₂ hne heq
      exact hne (by rw [← hkeys k₁ c₁ hk₁, ← hkeys k₂ c₂ hk₂, heq])
    · intro first' rest' hcons
      simp only [List.cons.injEq] at hcons
      obtain ⟨rfl, rfl⟩ := hcons
      refine ⟨?_, hroot, hparents⟩
      unfold Branch.addAllValidated at h
      cases hstep : start.AddCommit first false with
      | none => simp [hstep] at h
      | some r =>
        obtain ⟨result, branch₁⟩ := r
        rcases Branch.addCommit_validated_cases hstep with ⟨hvalid, -, -⟩ | ⟨-, hres, -, -⟩
        · rw [Branch.validCommit_of_len_eq_zero first hempty] at hvalid
          simp at hvalid
        · simp [hres]

/-- Witness for C22: from the empty branch `main`, `c1` is accepted, `c0` (earlier than its
parent `c1`) is refused and `c2` (later than its parent `c1`) is accepted. -/
theorem branch_lineage_invariant_witness :
    (Branch.mk "main" GoMap.make).Commits.len = 0 ∧
    (Branch.mk "main" GoMap.make).addAllValidated
        [sampleCommit "c1" [] 5, sampleCommit "c0" ["c1"] 4, sampleCommit "c2" ["c1"] 6]
      = some { Name := "main",
               Commits := GoMap.alloc [("c2", sampleCommit "c2" ["c1"] 6),
                                       ("c1", sampleCommit "c1" [] 5)] } ∧
    ∀ k c,
      (GoMap.alloc [("c2", sampleCommit "c2" ["c1"] 6), ("c1", sampleCommit "c1" [] 5)]).get? k
        = some c → c.Hash = k :=
  ⟨by decide, by decide,
    ((branch_lineage_invariant (Branch.mk "main" GoMap.make)
      [sampleCommit "c1" [] 5, sampleCommit "c0" ["c1"] 4, sampleCommit "c2" ["c1"] 6]
      (by decide)).2
      { Name := "main",
        Commits := GoMap.alloc [("c2", sampleCommit "c2" ["c1"] 6),
                                ("c1", sampleCommit "c1" [] 5)] }
      (by decide)).1⟩

/-! ## Cycles among the commits of a branch -/

theorem Branch.firstParentEdge_decreases {branch : Branch} {root child parent : String}
    (hinv : branch.Lineage root) (hedge : branch.firstParentEdge root child parent = true) :
    ∃ c d, branch.Commits.get? child = some c ∧ branch.Commits.get? parent = some d ∧
      d.Timestamp.UnixMilli < c.Timestamp.UnixMilli := by
  unfold Branch.firstParentEdge at hedge
  cases hchild : branch.Commits.get? child with
  | none => simp [hchild] at hedge
  | some c =>
    simp only [hchild, Bool.and_eq_true, decide_eq_true_eq] at hedge
    obtain ⟨⟨hroot, hhead⟩, -⟩ := hedge
    obtain ⟨p, others, d, hparents, hd, hlt⟩ := hinv.2 child c hchild hroot
    rw [hparents] at hhead
    simp only [List.head?_cons, Option.some.injEq] at hhead
    subst hhead
    exact ⟨c, d, rfl, hd, hlt⟩

/-- Along one or more first-parent steps the millisecond time stamp strictly decreases. -/
theorem Branch.lineage_transGen_decreases {branch : Branch} {root : String}
    (hinv : branch.Lineage root) {a b : String}
    (hpath : Relation.TransGen (fun x y => branch.firstParentEdge root x y = true) a b) :
    ∃ c d, branch.Commits.get? a = some c ∧ branch.Commits.get? b = some d ∧
      d.Timestamp.UnixMilli < c.Timestamp.UnixMilli := by
  induction hpath with
  | single hedge => exact Branch.firstParentEdge_decreases hinv hedge
  | tail _ hedge ih =>
    obtain ⟨c, d, hc, hd, hlt⟩ := ih
    obtain ⟨d', e, hd', he, hlt'⟩ := Branch.firstParentEdge_decreases hinv hedge
    rw [hd] at hd'
    have hdd : d = d' := Option.some.inj hd'
    subst hdd
    exact ⟨c, e, hc, he, lt_trans hlt' hlt⟩

/-- Claim C23, as stated.  From the empty branch `main`, the validated append of a commit
`c1` that lists itself as parent is accepted, and `c1` is then its own parent in the branch.
Likewise `c1`, then `c2` with parents `c1, c3`, then `c3` with parent `c2` are all accepted,
and `c2` and `c3` are then parents of each other. -/
theorem branch_parent_relation_has_cycles :
    (Branch.mk "main" GoMap.make).addAllValidated [sampleCommit "c1" ["c1"] 5]
      = some { Name := "main", Commits := GoMap.alloc [("c1", sampleCommit "c1" ["c1"] 5)] } ∧
    Relation.TransGen
      (fun child parent =>
        ({ Name := "main", Commits := GoMap.alloc [("c1", sampleCommit "c1" ["c1"] 5)] }
          : Branch).parentEdge child parent = true) "c1" "c1" ∧
    (Branch.mk "main" GoMap.make).addAllValidated
        [sampleCommit "c1" [] 1, sampleCommit "c2" ["c1", "c3"] 2, sampleCommit "c3" ["c2"] 3]
      = some { Name := "main",
               Commits := GoMap.alloc [("c3", sampleCommit "c3" ["c2"] 3),
                                       ("c2", sampleCommit "c2" ["c1", "c3"] 2),
                                       ("c1", sampleCommit "c1" [] 1)] } ∧
    Relation.TransGen
      (fun child parent =>
        ({ Name := "main",
           Commits := GoMap.alloc [("c3", sampleCommit "c3" ["c2"] 3),
                                   ("c2", sampleCommit "c2" ["c1", "c3"] 2),
                                   ("c1", sampleCommit "c1" [] 1)] }
          : Branch).parentEdge child parent = true) "c2" "c2" :=
  ⟨by decide, Relation.TransGen.single (by decide), by decide,
    Relation.TransGen.tail
      (show Relation.TransGen _ "c2" "c3" from Relation.TransGen.single (by decide))
      (by decide)⟩

/-- Claim C23, amended.  In every branch obtained from a branch with zero commits by
validated appends of `first :: rest`, the relation "`parent` is the first parent hash of the
commit `child`, `child` is not the first commit accepted, and both are commits of the
branch" has no cycle: no hash reaches itself along one or more steps of it. -/
theorem branch_first_parent_acyclic (start : Branch) (first : Commit) (rest : List Commit)
    (hempty : start.Commits.len = 0) :
    ∀ branch, start.addAllValidated (first :: rest) = some branch →
      ∀ hash, ¬ Relation.TransGen
        (fun child parent => branch.firstParentEdge first.Hash child parent = true)
        hash hash := by
  intro branch h hash hcycle
  obtain ⟨hinv, -⟩ := Branch.lineage_of_empty hempty h
  obtain ⟨c, d, hc, hd, hlt⟩ := Branch.lineage_transGen_decreases hinv hcycle
  rw [hc] at hd
  have hcd : c = d := Option.some.inj hd
  subst hcd
  exact lt_irrefl _ hlt

/-- Witness for C23 amended: the branch with `c1`, `c2`, `c3` in which `c2` and `c3` list
each other; along first parents `c3` leads to `c2` and `c2` to `c1`, and there it ends. -/
theorem branch_first_parent_acyclic_witness :
    (Branch.mk "main" GoMap.make).Commits.len = 0 ∧
    (Branch.mk "main" GoMap.make).addAllValidated
        [sampleCommit "c1" [] 1, sampleCommit "c2" ["c1", "c3"] 2, sampleCommit "c3" ["c2"] 3]
      = some { Name := "main",
               Commits := GoMap.alloc [("c3", sampleCommit "c3" ["c2"] 3),
                                       ("c2", sampleCommit "c2" ["c1", "c3"] 2),
                                       ("c1", sampleCommit "c1" [] 1)] } ∧
    ¬ Relation.TransGen
      (fun child parent =>
        ({ Name := "main",
           Commits := GoMap.alloc [("c3", sampleCommit "c3" ["c2"] 3),
                                   ("c2", sampleCommit "c2" ["c1", "c3"] 2),
                                   ("c1", sampleCommit "c1" [] 1)] }
          : Branch).firstParentEdge (sampleCommit "c1" [] 1).Hash child parent = true)
      "c2" "c2" :=
  ⟨by decide, by decide,
    branch_first_parent_acyclic (Branch.mk "main" GoMap.make) (sampleCommit "c1" [] 1)
      [sampleCommit "c2" ["c1", "c3"] 2, sampleCommit "c3" ["c2"] 3] (by decide) _ (by decide)
      "c2"⟩


/-! ## Rebuilding a repository from a decoded one -/

/-- Claim C24, at the failing input.  `decodedRepo` has the branch `A`, with `a1` and the
merge commit `a2` whose second parent `b1` lives on the branch `B`.  Both lists of visits
enumerate this decoded repository.  When `range` yields `A` before `B`, the commit `a2` is
refused, because `b1` is not yet in the commit index; when it yields `B` before `A`, `a2` is
accepted.  The two rebuilt repositories differ in the commits of `A` and in the index. -/
theorem unmarshalRepo_depends_on_branch_order :
    IsEnumeration decodedRepo
      [(decodedBranchA, [sampleCommit "a1" [] 1, sampleCommit "a2" ["a1", "b1"] 3]),
       (decodedBranchB, [sampleCommit "b1" [] 2])] ∧
    IsEnumeration decodedRepo
      [(decodedBranchB, [sampleCommit "b1" [] 2]),
       (decodedBranchA, [sampleCommit "a1" [] 1, sampleCommit "a2" ["a1", "b1"] 3])] ∧
    (UnmarshalRepo decodedRepo none ⟨0, 0⟩
      [(decodedBranchA, [sampleCommit "a1" [] 1, sampleCommit "a2" ["a1", "b1"] 3]),
       (decodedBranchB, [sampleCommit "b1" [] 2])]).map
      (fun r => ((r.1.Branches.getD "A").Commits.keys, r.1.CommitHashes.keys, r.2))
      = some (["a1"], ["b1", "a1"], none) ∧
    (UnmarshalRepo decodedRepo none ⟨0, 0⟩
      [(decodedBranchB, [sampleCommit "b1" [] 2]),
       (decodedBranchA, [sampleCommit "a1" [] 1, sampleCommit "a2" ["a1", "b1"] 3])]).map
      (fun r => ((r.1.Branches.getD "A").Commits.keys, r.1.CommitHashes.keys, r.2))
      = some (["a2", "a1"], ["a2", "a1", "b1"], none) :=
  ⟨by unfold IsEnumeration; decide, by unfold IsEnumeration; decide, by decide, by decide⟩

/-! ## The index covers the branches -/

theorem Repository.indexCovers_of_check {repo : Repository}
    (h : repo.indexCoversCheck = true) : repo.IndexCovers := by
  intro b branch hb k c hk
  simp only [Repository.indexCoversCheck, List.all_eq_true] at h
  exact h branch ((GoMap.mem_values_iff _ _).2 ⟨b, hb⟩) c ((GoMap.mem_values_iff _ _).2 ⟨k, hk⟩)

/-- What a true verdict of `Repository.AddCommit` leaves behind. -/
theorem Repository.addCommit_accepted_eq {repo repo' : Repository} {c : Commit} {b : String}
    {f : Bool} {err : Option String}
    (h : repo.AddCommit c b f = some ((true, err), repo')) :
    ∃ branch' branches hashes,
      (repo.Branches.getD b).AddCommit c f = some ((true, none), branch') ∧
      repo.Branches.set b branch' = some branches ∧
      repo.CommitHashes.set c.Hash true = some hashes ∧
      repo' = { repo with Branches := branches, CommitHashes := hashes } := by
  unfold Repository.AddCommit at h
  split at h
  · cases hb : (repo.Branches.getD b).AddCommit c f with
    | none => simp [hb] at h
    | some r =>
      obtain ⟨⟨done, e⟩, br⟩ := r
      simp only [hb] at h
      cases done with
      | false => simp at h
      | true =>
        obtain ⟨he, -, -⟩ := Branch.addCommit_eq_some_true hb
        subst he
        simp only [if_true] at h
        cases hs : repo.Branches.set b br with
        | none => simp [hs] at h
        | some branches =>
          simp only [hs] at h
          cases hh : ({ repo with Branches := branches } : Repository).AddCommitHash c with
          | none => simp [hh] at h
          | some r₂ =>
            obtain ⟨v₂, repo₂⟩ := r₂
            obtain ⟨hashes, hset, hrepo₂⟩ := Repository.addCommitHash_eq_some hh
            simp only [hh, Option.some.injEq, Prod.mk.injEq] at h
            exact ⟨br, branches, hashes, rfl, hs, hset, by rw [← h.2, hrepo₂]⟩
  · simp at h

theorem Repository.addBranch_eq_some_false {repo repo' : Repository} {br : Branch} {f : Bool}
    {err : Option String} (h : repo.AddBranch br f = some ((false, err), repo')) :
    repo' = repo := by
  unfold Repository.AddBranch at h
  split at h
  · cases hs : repo.Branches.set br.Name br with
    | none => simp [hs] at h
    | some branches =>
      simp only [hs] at h
      cases hl : ({ repo with Branches := branches } : Repository).addCommitHashLoop
          br.Commits.values with
      | none => simp [hl] at h
      | some repo₁ => simp [hl] at h
  · simp only [Option.some.injEq, Prod.mk.injEq] at h
    exact h.2.symm

theorem Repository.updateBranchName_eq_some_false {repo repo' : Repository} {br : Branch}
    {n : String} {err : Option String}
    (h : repo.UpdateBranchName br n = some ((false, err), repo')) : repo' = repo := by
  unfold Repository.UpdateBranchName at h
  simp only at h
  split at h
  · split at h
    · cases hs : (repo.Branches.delete (repo.Branches.getD br.Name).Name).set n
          { repo.Branches.getD br.Name with Name := n } with
      | none => simp [hs] at h
      | some branches => simp [hs] at h
    · simp only [Option.some.injEq, Prod.mk.injEq] at h
      exact h.2.symm
  · simp only [Option.some.injEq, Prod.mk.injEq] at h
    exact h.2.symm

theorem Repository.indexCovers_addCommit {repo repo' : Repository} {c : Commit} {b : String}
    {f : Bool} {result : Bool × Option String} (hcov : repo.IndexCovers)
    (h : repo.AddCommit c b f = some (result, repo')) : repo'.IndexCovers := by
  obtain ⟨verdict, err⟩ := result
  cases verdict with
  | false =>
    rw [(Repository.addCommit_outcome h).2 rfl]
    exact hcov
  | true =>
    obtain ⟨branch', branches, hashes, hadd, hbs, hhs, hrepo⟩ :=
      Repository.addCommit_accepted_eq h
    obtain ⟨-, -, hcs⟩ := Branch.addCommit_eq_some_true hadd
    subst hrepo
    have hmono : ∀ hash, repo.CommitExists hash = true →
        ({ repo with Branches := branches, CommitHashes := hashes } : Repository).CommitExists
          hash = true := by
      intro hash hex
      by_cases hh : hash = c.Hash
      · simp [Repository.CommitExists, GoMap.contains, hh, GoMap.get?_set_self hhs]
      · simpa [Repository.CommitExists, GoMap.contains, GoMap.get?_set_ne hhs hh] using hex
    intro b₁ branch₁ hb₁ k d hk
    by_cases hbb : b₁ = b
    · subst hbb
      have hbranch : branch₁ = branch' := by
        have h₁ : (some branch' : Option Branch) = some branch₁ := by
          rw [← hb₁]
          exact (GoMap.get?_set_self hbs).symm
        exact (Option.some.inj h₁).symm
      subst hbranch
      by_cases hkc : k = c.Hash
      · rw [hkc, GoMap.get?_set_self hcs] at hk
        rw [← Option.some.inj hk]
        simp [Repository.CommitExists, GoMap.contains, GoMap.get?_set_self hhs]
      · rw [GoMap.get?_set_ne hcs hkc] at hk
        cases hold : repo.Branches.get? b₁ with
        | none =>
          have hgetD : repo.Branches.getD b₁ = default := by simp [GoMap.getD, hold]
          have hnone : (default : Branch).Commits.get? k = none := rfl
          rw [hgetD, hnone] at hk
          simp at hk
        | some old =>
          have hgetD : repo.Branches.getD b₁ = old := by simp [GoMap.getD, hold]
          rw [hgetD] at hk
          exact hmono _ (hcov b₁ old hold k d hk)
    · have hb₁' : repo.Branches.get? b₁ = some branch₁ := by
        rw [← GoMap.get?_set_ne hbs hbb]
        exact hb₁
      exact hmono _ (hcov b₁ branch₁ hb₁' k d hk)

theorem Repository.indexCovers_addCommits (commits : List Commit) (b : String) (f : Bool) :
    ∀ {repo repo' : Repository} {result : Bool × Option String}, repo.IndexCovers →
      repo.AddCommits commits b f = some (result, repo') → repo'.IndexCovers := by
  induction commits with
  | nil =>
    intro repo repo' result hcov h
    simp only [Repository.AddCommits, Option.some.injEq, Prod.mk.injEq] at h
    rw [← h.2]
    exact hcov
  | cons c rest ih =>
    intro repo repo' result hcov h
    rcases Repository.addCommit_trichotomy repo c b f with ⟨repo₁, h₁⟩ | h₁ | h₁
    · rw [Repository.addCommits_cons_of_accepted h₁] at h
      exact ih (Repository.indexCovers_addCommit hcov h₁) h
    · rw [Repository.addCommits_cons_of_rejected h₁] at h
      simp only [Option.some.injEq, Prod.mk.injEq] at h
      rw [← h.2]
      exact hcov
    · rw [Repository.addCommits_cons_of_failed h₁] at h
      simp at h

theorem Repository.indexCovers_addBranch {repo repo' : Repository} {br : Branch} {f : Bool}
    {result : Bool × Option String} (hcov : repo.IndexCovers)
    (h : repo.AddBranch br f = some (result, repo')) : repo'.IndexCovers := by
  obtain ⟨verdict, err⟩ := result
  cases verdict with
  | false =>
    rw [Repository.addBranch_eq_some_false h]
    exact hcov
  | true =>
    obtain ⟨-, hnew, hindex, hother, -⟩ := Repository.addBranch_eq_some_true h
    intro b₁ branch₁ hb₁ k d hk
    by_cases hbb : b₁ = br.Name
    · rw [hbb, hnew] at hb₁
      have hbranch : br = branch₁ := Option.some.inj hb₁
      subst hbranch
      exact (hindex d.Hash).2 (Or.inr ⟨k, d, hk, rfl⟩)
    · rw [hother b₁ hbb] at hb₁
      exact (hindex d.Hash).2 (Or.inl (hcov b₁ branch₁ hb₁ k d hk))

theorem Repository.indexCovers_updateBranchName {repo repo' : Repository} {br : Branch}
    {n : String} {result : Bool × Option String} (hcov : repo.IndexCovers)
    (h : repo.UpdateBranchName br n = some (result, repo')) : repo'.IndexCovers := by
  obtain ⟨verdict, err⟩ := result
  cases verdict with
  | false =>
    rw [Repository.updateBranchName_eq_some_false h]
    exact hcov
  | true =>
    obtain ⟨-, -, -, -, stored, branches, hstored, hset, hrepo⟩ :=
      Repository.updateBranchName_eq_some_true h
    subst hrepo
    intro b₁ branch₁ hb₁ k d hk
    have hb₁' : branches.get? b₁ = some branch₁ := hb₁
    show repo.CommitExists d.Hash = true
    by_cases hbn : b₁ = n
    · rw [hbn, GoMap.get?_set_self hset] at hb₁'
      have hbranch : ({ stored with Name := n } : Branch) = branch₁ := Option.some.inj hb₁'
      subst hbranch
      exact hcov br.Name stored hstored k d hk
    · rw [GoMap.get?_set_ne hset hbn] at hb₁'
      by_cases hbs : b₁ = stored.Name
      · rw [hbs, GoMap.get?_delete_self] at hb₁'
        simp at hb₁'
      · rw [GoMap.get?_delete_ne _ hbs] at hb₁'
        exact hcov b₁ branch₁ hb₁' k d hk

theorem Repository.indexCovers_deleteBranch {repo : Repository} (hcov : repo.IndexCovers)
    (n : String) : (repo.DeleteBranch n).2.IndexCovers := by
  unfold Repository.DeleteBranch
  split
  · intro b₁ branch₁ hb₁ k d hk
    have hb₁' : (repo.Branches.delete n).get? b₁ = some branch₁ := hb₁
    show repo.CommitExists d.Hash = true
    by_cases hbn : b₁ = n
    · rw [hbn, GoMap.get?_delete_self] at hb₁'
      simp at hb₁'
    · rw [GoMap.get?_delete_ne _ hbn] at hb₁'
      exact hcov b₁ branch₁ hb₁' k d hk
  · exact hcov

theorem Repository.indexCovers_updateAccess {repo repo' : Repository} {authorized : String}
    {level : UserAccess} {authorizer : String} {t : Time} {verdict : Bool}
    (hcov : repo.IndexCovers)
    (h : repo.UpdateAccess authorized level authorizer t = some (verdict, repo')) :
    repo'.IndexCovers := by
  rcases Repository.updateAccess_cases repo authorized level authorizer t with
    ⟨-, access, -, hres⟩ | ⟨-, hres⟩
  · rw [hres] at h
    simp only [Option.some.injEq, Prod.mk.injEq] at h
    rw [← h.2]
    exact hcov
  · rw [hres] at h
    simp only [Option.some.injEq, Prod.mk.injEq] at h
    rw [← h.2]
    exact hcov

/-- Claim C26.  The predicate "for every branch of the repository and every commit stored in
it, the `Hash` of the commit is in the commit index" holds for the repository returned by
`CreateNewRepo` with nil branches, and when it holds for a repository it holds for the
repository that a call of `AddCommit` (with either flag), `AddCommits`, `AddBranch` (with
either flag), `UpdateBranchName`, `DeleteBranch` or `UpdateAccess` leaves behind. -/
theorem index_covers_branches :
    (∀ name author directoryCID accessLogs t,
      (CreateNewRepo name author directoryCID GoMap.nilMap accessLogs t).1.IndexCovers) ∧
    ∀ repo : Repository, repo.IndexCovers →
      (∀ c b f result repo', repo.AddCommit c b f = some (result, repo') →
        repo'.IndexCovers) ∧
      (∀ commits b f result repo', repo.AddCommits commits b f = some (result, repo') →
        repo'.IndexCovers) ∧
      (∀ br setIfExists result repo', repo.AddBranch br setIfExists = some (result, repo') →
        repo'.IndexCovers) ∧
      (∀ br n result repo', repo.UpdateBranchName br n = some (result, repo') →
        repo'.IndexCovers) ∧
      (∀ n, (repo.DeleteBranch n).2.IndexCovers) ∧
      (∀ authorized level authorizer t verdict repo',
        repo.UpdateAccess authorized level authorizer t = some (verdict, repo') →
        repo'.IndexCovers) := by
  constructor
  · intro name author directoryCID accessLogs t b branch hb k c hk
    by_cases hmain : "main" = b
    · simp [CreateNewRepo, GoMap.get?, GoMap.entries, putKey, eraseKey, lookupKey, hmain] at hb
      rw [← hb] at hk
      simp [GoMap.make, GoMap.get?, GoMap.entries, lookupKey] at hk
    · simp [CreateNewRepo, GoMap.get?, GoMap.entries, putKey, eraseKey, lookupKey, hmain] at hb
  · intro repo hcov
    exact ⟨fun c b f result repo' h => Repository.indexCovers_addCommit hcov h,
      fun commits b f result repo' h => Repository.indexCovers_addCommits commits b f hcov h,
      fun br f result repo' h => Repository.indexCovers_addBranch hcov h,
      fun br n result repo' h => Repository.indexCovers_updateBranchName hcov h,
      fun n => Repository.indexCovers_deleteBranch hcov n,
      fun authorized level authorizer t verdict repo' h =>
        Repository.indexCovers_updateAccess hcov h⟩

/-- Witness for C26: `sampleRepo` satisfies the predicate; the forced append of `c7` to
`main` and the deletion of `dev` from `twoBranchRepo` return, and their results satisfy
it. -/
theorem index_covers_branches_witness :
    sampleRepo.IndexCovers ∧
    (∃ repo', sampleRepo.AddCommit (sampleCommit "c7" ["zz"] 1) "main" true
        = some ((true, none), repo') ∧ repo'.IndexCovers) ∧
    twoBranchRepo.IndexCovers ∧ (twoBranchRepo.DeleteBranch "dev").1.1 = true ∧
    (twoBranchRepo.DeleteBranch "dev").2.IndexCovers :=
  ⟨Repository.indexCovers_of_check (by decide),
    ⟨{ sampleRepo with
        Branches := GoMap.alloc
          [("main", { Name := "main",
                      Commits := GoMap.alloc [("c7", sampleCommit "c7" ["zz"] 1),
                                              ("c1", sampleCommit "c1" [] 5)] })],
        CommitHashes := GoMap.alloc [("c7", true), ("c1", true)] },
      by decide,
      (index_covers_branches.2 sampleRepo (Repository.indexCovers_of_check (by decide))).1
        (sampleCommit "c7" ["zz"] 1) "main" true (true, none) _ (by decide)⟩,
    Repository.indexCovers_of_check (by decide), by decide,
    (index_covers_branches.2 twoBranchRepo
      (Repository.indexCovers_of_check (by decide))).2.2.2.2.1 "dev"⟩

/-! ## Validation and append agree -/

/-- When the index covers the branches, a commit that the repository-level validation accepts
is accepted by the validation of its branch as well. -/
theorem Repository.branch_validCommit_of_validCommit {repo : Repository} {c : Commit}
    {b : String} {branch : Branch} (hcov : repo.IndexCovers)
    (hbranch : repo.Branches.get? b = some branch)
    (hvalid : (repo.ValidCommit c b).1 = true) : (branch.ValidCommit c).1 = true := by
  have hex : repo.BranchExists b = true := by
    simp [Repository.BranchExists, GoMap.contains, hbranch]
  have hgetD : repo.Branches.getD b = branch := by simp [GoMap.getD, hbranch]
  by_cases hlen : repo.CommitHashes.len = 0
  · apply Branch.validCommit_of_len_eq_zero
    apply GoMap.len_eq_zero_of_forall
    intro k
    cases hk : branch.Commits.get? k with
    | none => rfl
    | some d =>
      have hin := hcov b branch hbranch k d hk
      simp [Repository.CommitExists, GoMap.contains,
        GoMap.get?_eq_none_of_len_eq_zero hlen] at hin
  · cases hbv : (branch.ValidCommit c).1 with
    | true => rfl
    | false => simp [Repository.ValidCommit, hex, hlen, hgetD, hbv] at hvalid

/-- Claim C27, as stated.  In `nilBranchRepo` the only branch, `dev`, has a nil commit map,
so the index covers the branches; the repository-level validation accepts `c1`, and
`AddCommit` then fails at run time in the assignment to the nil map instead of returning
true. -/
theorem addCommit_validCommit_disagree_on_nil_map :
    nilBranchRepo.IndexCovers ∧
    (nilBranchRepo.ValidCommit (sampleCommit "c1" [] 5) "dev").1 = true ∧
    nilBranchRepo.AddCommit (sampleCommit "c1" [] 5) "dev" false = none ∧
    nilIndexRepo.IndexCovers ∧
    (nilIndexRepo.ValidCommit (sampleCommit "c1" [] 5) "main").1 = true ∧
    nilIndexRepo.AddCommit (sampleCommit "c1" [] 5) "main" false = none :=
  ⟨Repository.indexCovers_of_check (by decide), by decide, by decide,
    Repository.indexCovers_of_check (by decide), by decide, by decide⟩

/-- Claim C27, amended.  For a repository in which every commit stored in a branch has its
hash in the commit index, whose commit index is allocated and whose branch `b`, if there is
one, has an allocated commit map, `Repository.AddCommit c b false` returns true exactly when
`Repository.ValidCommit c b` returns true; the validation inside `Branch.AddCommit` accepts
every commit that the repository-level validation accepted. -/
theorem addCommit_agrees_with_validCommit (repo : Repository) (c : Commit) (b : String)
    (hcov : repo.IndexCovers)
    (hindex : repo.CommitHashes ≠ GoMap.nilMap)
    (hcommits : ∀ branch, repo.Branches.get? b = some branch → branch.Commits ≠ GoMap.nilMap) :
    ((∃ err repo', repo.AddCommit c b false = some ((true, err), repo')) ↔
      (repo.ValidCommit c b).1 = true) ∧
    ((repo.ValidCommit c b).1 = true →
      ∀ branch, repo.Branches.get? b = some branch → (branch.ValidCommit c).1 = true) := by
  refine ⟨⟨?_, ?_⟩, fun hvalid branch hbranch =>
    Repository.branch_validCommit_of_validCommit hcov hbranch hvalid⟩
  · rintro ⟨err, repo', h⟩
    cases hvalid : (repo.ValidCommit c b).1 with
    | true => rfl
    | false => simp [Repository.AddCommit, hvalid] at h
  · intro hvalid
    obtain ⟨branch, hbranch⟩ := Repository.branch_of_validCommit hvalid
    have hgetD : repo.Branches.getD b = branch := by simp [GoMap.getD, hbranch]
    have hbv := Repository.branch_validCommit_of_validCommit hcov hbranch hvalid
    obtain ⟨commits, hcs⟩ := GoMap.set_eq_some_of_ne_nilMap (hcommits branch hbranch) c.Hash c
    obtain ⟨branches, hbs⟩ :=
      GoMap.set_isSome_of_contains
        (show repo.Branches.contains b = true by simp [GoMap.contains, hbranch])
        b ({ branch with Commits := commits } : Branch)
    obtain ⟨hashes, hhs⟩ := GoMap.set_eq_some_of_ne_nilMap hindex c.Hash true
    refine ⟨none, { repo with Branches := branches, CommitHashes := hashes }, ?_⟩
    simp [Repository.AddCommit, hvalid, hgetD, Branch.AddCommit, hbv, hcs, hbs,
      Repository.AddCommitHash, hhs]

/-- Witness for C27 amended: `sampleRepo` with the commit `c2`, child of `c1`, on `main`:
validation accepts it and `AddCommit` returns true. -/
theorem addCommit_agrees_with_validCommit_witness :
    sampleRepo.IndexCovers ∧ sampleRepo.CommitHashes ≠ GoMap.nilMap ∧
    (∀ branch, sampleRepo.Branches.get? "main" = some branch →
      branch.Commits ≠ GoMap.nilMap) ∧
    (sampleRepo.ValidCommit (sampleCommit "c2" ["c1"] 6) "main").1 = true ∧
    ∃ err repo',
      sampleRepo.AddCommit (sampleCommit "c2" ["c1"] 6) "main" false
        = some ((true, err), repo') :=
  have hcommits : ∀ branch, sampleRepo.Branches.get? "main" = some branch →
      branch.Commits ≠ GoMap.nilMap := by
    intro branch h
    have h' : sampleBranch = branch := by
      simpa [sampleRepo, GoMap.get?, GoMap.entries, lookupKey] using h
    subst h'
    decide
  ⟨Repository.indexCovers_of_check (by decide), by decide, hcommits, by decide,
    (addCommit_agrees_with_validCommit sampleRepo (sampleCommit "c2" ["c1"] 6) "main"
      (Repository.indexCovers_of_check (by decide)) (by decide) hcommits).1.2 (by decide)⟩

end DecentralizedGit
